import Mathlib

/-! Weighted priority queue and client of `rate-limited-http` (`pq.go`,
`http_client.go`).

A shallow embedding of `priorityQueue` and its methods, of the submission
methods of `httpClient` and of one iteration of its dispatch loop, followed by
the properties that the specification states.

Modelling conventions.

* `Priority` is Go's `int`; the four named levels are `1 .. 4`.
* A Go `map[Priority]T` is a total function `Priority → T`: reading a key that
  was never written yields the zero value of `T` (`nil` slice, `0.0`), and the
  code never tests for presence nor iterates over a map.
* A slice `[]*QItem` is a `List QItem`; a `*QItem` is the record it points to,
  the `task` pointer being a natural number.
* In the first embedding of the queue `float64` weights are exact rationals:
  rounding, overflow to infinity and NaN are outside it. The section
  `The queue with float64 weights` embeds the queue again with the `float64`
  arithmetic of the code; what the specification says of the value of a cached
  weight and of the level selected from the weights is settled there.
* `length` is an unbounded integer: the number of live entries is bounded by
  addressable memory, far below `2^63`, so the counter does not wrap.
* The mutex makes every method body atomic; a method is a function on states.
-/

set_option autoImplicit false

namespace RateLimitedHttp

/-- Go `type Priority int`. -/
abbrev Priority := Int

/-- Go constant `Immediate Priority = 1`. -/
def Immediate : Priority := 1
/-- Go constant `High Priority = 2`. -/
def High : Priority := 2
/-- Go constant `Medium Priority = 3`. -/
def Medium : Priority := 3
/-- Go constant `Low Priority = 4`. -/
def Low : Priority := 4

/-- Go `QItem`: an element within the queue. -/
structure QItem where
  task : Nat
  priority : Priority
  deriving DecidableEq, Repr

/-- Go `NewQItem`. -/
def NewQItem (payload : Nat) (priority : Priority) : QItem :=
  { task := payload, priority := priority }

/-- Go `(*QItem).Priority`. -/
def QItem.Priority (n : QItem) : Priority := n.priority

/-- Go `(*QItem).Task`. -/
def QItem.Task (n : QItem) : Nat := n.task

/-- Go `priorityQueue` (the mutex is not state of the sequential model). -/
structure priorityQueue where
  nodeHeap : Priority → List QItem
  nextPriority : Priority
  heapWeight : Priority → ℚ
  heapWeightConfig : Priority → ℚ
  length : Int

/-- Go `PriorityQueueOptions`. -/
structure PriorityQueueOptions where
  WeightImmediate : ℚ
  WeightHigh : ℚ
  WeightMedium : ℚ
  WeightLow : ℚ

/-- The defaults that `NewPriorityQueue` starts from. -/
def defaultQueueOptions : PriorityQueueOptions :=
  { WeightImmediate := 100, WeightHigh := 4 / 5, WeightMedium := 3 / 5, WeightLow := 3 / 10 }

/-- The map literal `{Immediate: .., High: .., Medium: .., Low: ..}`. -/
def configMap (opts : PriorityQueueOptions) : Priority → ℚ := fun p =>
  if p = Immediate then opts.WeightImmediate
  else if p = High then opts.WeightHigh
  else if p = Medium then opts.WeightMedium
  else if p = Low then opts.WeightLow
  else 0

/-- Go `NewPriorityQueue`: the variadic `optionFunc` is a list; when it is not
nil its first element rewrites the default options. -/
def NewPriorityQueue (optionFunc : List (PriorityQueueOptions → PriorityQueueOptions)) :
    priorityQueue :=
  let opts :=
    match optionFunc with
    | [] => defaultQueueOptions
    | f :: _ => f defaultQueueOptions
  { nodeHeap := fun _ => []
    nextPriority := 0
    heapWeight := fun _ => 0
    heapWeightConfig := configMap opts
    length := 0 }

/-- A new queue whose option function overwrites all four multipliers, as
`NewHttpClient` calls the constructor. -/
def newQueue (opts : PriorityQueueOptions) : priorityQueue :=
  NewPriorityQueue [fun _ => opts]

/-- The multipliers `NewHttpClient` passes by default, as the decimals written
in the source; `Rounded.clientOptions` holds the `float64` constants. -/
def clientOptions : PriorityQueueOptions :=
  { WeightImmediate := 100, WeightHigh := 4 / 5, WeightMedium := 3 / 5, WeightLow := 2 / 5 }

/-- Go `(*priorityQueue).Len`. -/
def Len (pq : priorityQueue) : Int := pq.length

/-- Go `(*priorityQueue).Empty`. -/
def Empty (pq : priorityQueue) : Bool := decide (Len pq = 0)

/-- Go `(*priorityQueue).updateHeapWeight`, the product taken exactly;
`Rounded.updateHeapWeight` rounds it as the code does. -/
def updateHeapWeight (pq : priorityQueue) (priority : Priority) : priorityQueue :=
  let length := (pq.nodeHeap priority).length
  let weightMultiplier := pq.heapWeightConfig priority
  { pq with heapWeight := Function.update pq.heapWeight priority ((length : ℚ) * weightMultiplier) }

/-- One iteration of the loop of `setNext`, on the pair `(nextPriority, max)`. -/
def setNextStep (heapWeight : Priority → ℚ) (acc : Priority × ℚ) (priority : Priority) :
    Priority × ℚ :=
  if heapWeight priority > acc.2 then (priority, heapWeight priority) else acc

/-- The values of `priority` in `for priority := Immediate; priority <= Low; priority++`. -/
def scanOrder : List Priority := [Immediate, High, Medium, Low]

/-- The loop of `setNext`, started from `nextPriority = 0`, `max = 0`. -/
def scanNext (heapWeight : Priority → ℚ) : Priority :=
  (scanOrder.foldl (setNextStep heapWeight) (0, 0)).1

/-- Go `(*priorityQueue).setNext`. -/
def setNext (pq : priorityQueue) : priorityQueue :=
  { pq with nextPriority := scanNext pq.heapWeight }

/-- Go `(*priorityQueue).Push`. -/
def Push (pq : priorityQueue) (node : QItem) : priorityQueue :=
  let pq1 := { pq with
    nodeHeap := Function.update pq.nodeHeap node.Priority (pq.nodeHeap node.Priority ++ [node]) }
  let pq2 := updateHeapWeight pq1 node.Priority
  let pq3 := { pq2 with length := pq2.length + 1 }
  setNext pq3

/-- What a call of `Pop` does: return `(node, nil)` and a new state, return
`(nil, err)`, or stop with the runtime error of indexing an empty slice. -/
inductive PopOutcome where
  | ok (node : QItem) (pq : priorityQueue)
  | emptyErr (pq : priorityQueue)
  | indexPanic

/-- Go `(*priorityQueue).Pop`. -/
def Pop (pq : priorityQueue) : PopOutcome :=
  if pq.length = 0 then .emptyErr pq
  else
    match pq.nodeHeap pq.nextPriority with
    | [] => .indexPanic
    | node :: rest =>
      let pq1 := { pq with nodeHeap := Function.update pq.nodeHeap pq.nextPriority rest }
      let pq2 := updateHeapWeight pq1 node.Priority
      let pq3 := { pq2 with length := pq2.length - 1 }
      .ok node (setNext pq3)

/-- A call made on the queue. -/
inductive Op where
  | push (node : QItem)
  | pop
  deriving DecidableEq, Repr

/-- The entries a list of calls pushes, in order. -/
def pushedOf : List Op → List QItem
  | [] => []
  | .push node :: ops => node :: pushedOf ops
  | .pop :: ops => pushedOf ops

/-- Every push of the list is at one of the four levels. -/
def atLevels (ops : List Op) : Prop :=
  ∀ node ∈ pushedOf ops, node.priority ∈ scanOrder

/-- Run a list of calls from a state, collecting the entries that `Pop`
returns, in order. A `Pop` that returns the error leaves the state as it is;
a `Pop` that panics ends the run with `none`. -/
def exec (pq : priorityQueue) (out : List QItem) : List Op → Option (priorityQueue × List QItem)
  | [] => some (pq, out)
  | .push node :: ops => exec (Push pq node) out ops
  | .pop :: ops =>
    match Pop pq with
    | .ok node pq' => exec pq' (out ++ [node]) ops
    | .emptyErr pq' => exec pq' out ops
    | .indexPanic => none

/-- Call `Pop` until it returns the error, at most `fuel` times, collecting the
entries returned. `none` when the fuel runs out or a `Pop` panics. -/
def drain : Nat → priorityQueue → List QItem → Option (priorityQueue × List QItem)
  | 0, _, _ => none
  | fuel + 1, pq, out =>
    match Pop pq with
    | .ok node pq' => drain fuel pq' (out ++ [node])
    | .emptyErr pq' => some (pq', out)
    | .indexPanic => none

/-- The number of entries queued at a level. -/
def backlog (pq : priorityQueue) (p : Priority) : Nat := (pq.nodeHeap p).length

/-- The weight of a level as the specification defines it: the number of
entries currently queued at the level times the level's multiplier. -/
def levelWeight (pq : priorityQueue) (p : Priority) : ℚ :=
  (backlog pq p : ℚ) * pq.heapWeightConfig p

/-- The maximum of the four weights. -/
def maxWeight (w : Priority → ℚ) : ℚ :=
  max (max (w Immediate) (w High)) (max (w Medium) (w Low))

/-- The selection rule in the words of the specification: the lowest-ordinal
level whose weight is the maximum of the four, when that maximum is strictly
positive, and `0` (no level) otherwise. -/
def selectByRule (w : Priority → ℚ) : Priority :=
  if 0 < maxWeight w then (scanOrder.find? (fun p => decide (w p = maxWeight w))).getD 0 else 0

/-- The scan of `setNext` written as a decision list over the four weights
(a proof device: `scan_pickLevel` shows the loop computes it). -/
def pickLevel (a b c d : ℚ) : Priority :=
  if 0 < a ∧ b ≤ a ∧ c ≤ a ∧ d ≤ a then 1
  else if 0 < b ∧ a < b ∧ c ≤ b ∧ d ≤ b then 2
  else if 0 < c ∧ a < c ∧ b < c ∧ d ≤ c then 3
  else if 0 < d ∧ a < d ∧ b < d ∧ c < d then 4
  else 0

/-- Every entry stored under key `p` has priority `p`, every cached weight is
the weight of the actual backlog, and the cached next level is the scan of the
cached weights. -/
structure Coherent (pq : priorityQueue) : Prop where
  keyed : ∀ p, ∀ x ∈ pq.nodeHeap p, x.priority = p
  weights : ∀ p, pq.heapWeight p = levelWeight pq p
  next : pq.nextPriority = scanNext pq.heapWeight

/-- The counter is the sum of the four backlogs and no other key holds an
entry. -/
structure Counted (pq : priorityQueue) : Prop where
  total : pq.length =
    (backlog pq Immediate + backlog pq High + backlog pq Medium + backlog pq Low : Nat)
  outside : ∀ p, p ∉ scanOrder → pq.nodeHeap p = []

/-- All four multipliers are strictly positive. -/
def PositiveOptions (opts : PriorityQueueOptions) : Prop :=
  0 < opts.WeightImmediate ∧ 0 < opts.WeightHigh ∧ 0 < opts.WeightMedium ∧ 0 < opts.WeightLow

/-- The entries of a list that have priority `p`, in order. -/
def atPriority (p : Priority) (l : List QItem) : List QItem :=
  l.filter (fun x => decide (x.priority = p))

/-- The invariants of a state reached from `newQueue opts` by pushes at the
four levels and pops. -/
structure Reached (opts : PriorityQueueOptions) (pq : priorityQueue) : Prop where
  coherent : Coherent pq
  counted : Counted pq
  config : pq.heapWeightConfig = configMap opts

/-- The run that pushes one Immediate entry and then `n` Low entries. -/
def immediateThenLow (n : Nat) : List Op :=
  .push ⟨0, Immediate⟩ :: (List.range n).map (fun i => Op.push ⟨i + 1, Low⟩)

/-! ## The client (`http_client.go`)

The dispatcher goroutine and the producers share the queue under its mutex;
here one producer call up to its blocking receive, and one iteration of the
dispatcher loop, are each a function on the state of the whole system.
`rateLimiter.Take()` only delays the loop and is not state. An `*ApiTask` is
an address into `heap`; a result channel is a number, and `sent c` lists the
values sent on channel `c`, oldest first: the producer of a queued task is
blocked receiving on the task's channel, so a send on it completes. -/

/-- The fields of `http.Request` that the client sets. -/
structure Request where
  Method : String
  URL : String
  Body : Option Nat
  ContentType : Option String
  deriving DecidableEq, Repr

/-- Go `ApiTaskResult`: the pair `(res, err)` the transport returned. -/
structure ApiTaskResult where
  Result : Option Nat
  Err : Option String
  deriving DecidableEq, Repr

/-- Go `ApiTask`: the request and the channel its result is sent on. -/
structure ApiTask where
  Request : Request
  Result : Nat
  deriving DecidableEq, Repr

/-- Go `httpClient`: the queue, the buffered channel `tasks` with its capacity,
and the buffered channel `quitChan`. -/
structure httpClient where
  queue : priorityQueue
  tasks : List Nat
  tasksCap : Nat
  quitChan : List Bool

/-- Go `HttpClientOptions`, without the transport. -/
structure HttpClientOptions where
  RateLimit : Int
  WorkQueueMaxSize : Int
  WeightImmediate : ℚ
  WeightHigh : ℚ
  WeightMedium : ℚ
  WeightLow : ℚ

/-- The defaults that `NewHttpClient` starts from. -/
def defaultClientOptions : HttpClientOptions :=
  { RateLimit := 10, WorkQueueMaxSize := 500, WeightImmediate := 100, WeightHigh := 4 / 5,
    WeightMedium := 3 / 5, WeightLow := 2 / 5 }

/-- Go `NewHttpClient`. `none` is a panic of the constructor: `ratelimit.New`
divides by the rate, and `make` rejects a negative channel size. -/
def NewHttpClient (optionFunc : List (HttpClientOptions → HttpClientOptions)) :
    Option httpClient :=
  let opts :=
    match optionFunc with
    | [] => defaultClientOptions
    | f :: _ => f defaultClientOptions
  if opts.RateLimit = 0 ∨ opts.WorkQueueMaxSize < 0 then none
  else
    some
      { queue := NewPriorityQueue [fun pqOpts =>
          { pqOpts with
            WeightImmediate := opts.WeightImmediate
            WeightHigh := opts.WeightHigh
            WeightMedium := opts.WeightMedium
            WeightLow := opts.WeightLow }]
        tasks := []
        tasksCap := opts.WorkQueueMaxSize.toNat
        quitChan := [] }

/-- The client together with what it points to and acts on: the tasks on the
heap, the values sent so far on each result channel, the requests handed to
the transport so far, and the next free address. -/
structure World where
  h : httpClient
  heap : Nat → ApiTask
  sent : Nat → List ApiTaskResult
  executed : List Request
  fresh : Nat

/-- A client with no task allocated, nothing sent and nothing executed. -/
def newWorld (h : httpClient) : World :=
  { h := h
    heap := fun _ => { Request := { Method := "", URL := "", Body := none, ContentType := none },
                       Result := 0 }
    sent := fun _ => []
    executed := []
    fresh := 0 }

/-- Go `http.NewRequest` on a method the library accepts: it fails exactly when
the url does not parse, `wellFormed` being the library's parser. -/
def NewRequest (wellFormed : String → Bool) (method url : String) (body : Option Nat) :
    Option Request :=
  if wellFormed url then some { Method := method, URL := url, Body := body, ContentType := none }
  else none

/-- Go `(*httpClient).enqueue`, up to the receive it blocks on: a new task with
a new channel is allocated and an entry pointing to it is pushed. -/
def enqueue (w : World) (request : Request) (priority : Priority) : World :=
  let task : ApiTask := { Request := request, Result := w.fresh }
  let node := NewQItem w.fresh priority
  { w with
    heap := Function.update w.heap w.fresh task
    fresh := w.fresh + 1
    h := { w.h with queue := Push w.h.queue node } }

/-- Go `(*httpClient).Get`; `none` is the return of `(nil, err)`. -/
def Get (wellFormed : String → Bool) (w : World) (url : String) (priority : Priority) :
    Option World :=
  match NewRequest wellFormed "GET" url none with
  | none => none
  | some req => some (enqueue w req priority)

/-- Go `(*httpClient).Head`. -/
def Head (wellFormed : String → Bool) (w : World) (url : String) (priority : Priority) :
    Option World :=
  match NewRequest wellFormed "HEAD" url none with
  | none => none
  | some req => some (enqueue w req priority)

/-- Go `(*httpClient).Post`. -/
def Post (wellFormed : String → Bool) (w : World) (url contentType : String) (body : Option Nat)
    (priority : Priority) : Option World :=
  match NewRequest wellFormed "POST" url body with
  | none => none
  | some req => some (enqueue w { req with ContentType := some contentType } priority)

/-- Go `(*httpClient).Put`. -/
def Put (wellFormed : String → Bool) (w : World) (url _contentType : String) (body : Option Nat)
    (priority : Priority) : Option World :=
  match NewRequest wellFormed "PUT" url body with
  | none => none
  | some req => some (enqueue w req priority)

/-- Go `(*httpClient).Delete`. -/
def Delete (wellFormed : String → Bool) (w : World) (url _contentType : String)
    (priority : Priority) : Option World :=
  match NewRequest wellFormed "PUT" url none with
  | none => none
  | some req => some (enqueue w req priority)

/-- Go `(*httpClient).Do`. -/
def Do (w : World) (req : Request) (priority : Priority) : World :=
  enqueue w req priority

/-- Go `(*httpClient).Close`: the goroutine it starts sends on `quitChan`, which
has room for one value. -/
def Close (w : World) : World :=
  if w.h.quitChan.length < 1 then { w with h := { w.h with quitChan := w.h.quitChan ++ [true] } }
  else w

/-- How one iteration of the loop of `start` ends: the loop goes on, the
goroutine returns, it panics, or it blocks for ever on a send that no other
goroutine receives. -/
inductive LoopOutcome where
  | next (w : World)
  | returned (w : World)
  | panicked
  | blocked

/-- The first statement of the loop body after `Take`: when the queue is not
empty, pop an entry and send its task on `tasks`. -/
def feedWork (w : World) : LoopOutcome :=
  if Empty w.h.queue then .next w
  else
    match Pop w.h.queue with
    | .ok apiTask pq' =>
      if w.h.tasks.length < w.h.tasksCap then
        .next { w with h := { w.h with queue := pq', tasks := w.h.tasks ++ [apiTask.Task] } }
      else .blocked
    | .emptyErr _ => .panicked
    | .indexPanic => .panicked

/-- The `case work := <-h.tasks` branch of the `select`. -/
def runWork (transport : Request → ApiTaskResult) (w : World) (work : Nat) (rest : List Nat) :
    World :=
  let task := w.heap work
  let res := transport task.Request
  { w with
    h := { w.h with tasks := rest }
    executed := w.executed ++ [task.Request]
    sent := Function.update w.sent task.Result (w.sent task.Result ++ [res]) }

/-- The `select` of the loop body. When both channels hold a value the Go
runtime picks a case at random: `workFirst` is that pick. -/
def selectStep (transport : Request → ApiTaskResult) (workFirst : Bool) (w : World) :
    LoopOutcome :=
  match w.h.tasks, w.h.quitChan with
  | work :: rest, [] => .next (runWork transport w work rest)
  | work :: rest, _ :: quit =>
    if workFirst then .next (runWork transport w work rest)
    else .returned { w with h := { w.h with quitChan := quit } }
  | [], _ :: quit => .returned { w with h := { w.h with quitChan := quit } }
  | [], [] => .next w

/-- One iteration of the loop of `(*httpClient).start`. -/
def loopIteration (transport : Request → ApiTaskResult) (workFirst : Bool) (w : World) :
    LoopOutcome :=
  match feedWork w with
  | .next w1 => selectStep transport workFirst w1
  | .returned w1 => .returned w1
  | .panicked => .panicked
  | .blocked => .blocked

/-- The submission that took `w` to `w'` pushed, at the tail of the sequence of
`priority`, an entry pointing to a new task whose request has the given
method and url. -/
def enqueuedWith (w w' : World) (method url : String) (priority : Priority) : Prop :=
  w'.h.queue.nodeHeap priority = w.h.queue.nodeHeap priority ++ [⟨w.fresh, priority⟩] ∧
    (w'.heap w.fresh).Request.Method = method ∧
    (w'.heap w.fresh).Request.URL = url

/-- The client's multipliers with the Low multiplier set to `0`. -/
def lowZeroOptions : PriorityQueueOptions :=
  { WeightImmediate := 100, WeightHigh := 4 / 5, WeightMedium := 3 / 5, WeightLow := 0 }

/-- The client that `NewHttpClient` builds when no option function is given. -/
def defaultClient : httpClient :=
  { queue := newQueue clientOptions, tasks := [], tasksCap := 500, quitChan := [] }

/-! ## The queue with `float64` weights

The definitions above compute weights in exact rationals. Below, the same
queue is embedded with the arithmetic of `pq.go`: the multipliers and the
cached weights are `float64` values and `float64(length) * weightMultiplier`
is the exact product rounded to the nearest `float64`, ties to even, with
overflow to an infinity and NaN for `0 * Inf`. The two zeros are one value,
which no comparison of the code distinguishes. -/

/-- A `float64` value: a finite number given by its exact value, an infinity
with its sign, or NaN. -/
inductive F64 where
  | fin (q : ℚ)
  | inf (neg : Bool)
  | nan
  deriving DecidableEq, Repr

/-- The integer nearest to `N / D`, the even one of two when `N / D` is half
way between them. -/
def roundNat (N D : Nat) : Nat :=
  let f := N / D
  let r := N % D
  if 2 * r < D then f else if D < 2 * r then f + 1 else if f % 2 = 0 then f else f + 1

/-- Halve `n` until it is below `2`, counting the steps, at most `fuel` of them. -/
def log2Aux : Nat → Nat → Nat
  | 0, _ => 0
  | fuel + 1, n => if n < 2 then 0 else log2Aux fuel (n / 2) + 1

/-- The integer part of the binary logarithm of `n ≥ 1`. -/
def log2 (n : Nat) : Nat := log2Aux n n

/-- Rounding of an exact value to `float64`, to nearest and ties to even. With
`e` the binary exponent of `|q|`, not below `-1022`, the result is the multiple
of `2 ^ (e - 52)` nearest to `q`; it is an infinity as soon as that multiple
reaches `2 ^ 1024`. -/
def roundF64 (q : ℚ) : F64 :=
  if q = 0 then .fin 0
  else
    let n := q.num.natAbs
    let d := q.den
    let e0 : Int := (log2 n : Int) - (log2 d : Int)
    let e : Int :=
      if (if 0 ≤ e0 then 2 ^ e0.toNat * d ≤ n else d ≤ n * 2 ^ (-e0).toNat) then e0 else e0 - 1
    let s : Int := max e (-1022) - 52
    let r : Nat :=
      if 0 ≤ s then roundNat n (d * 2 ^ s.toNat) else roundNat (n * 2 ^ (-s).toNat) d
    let v : ℚ :=
      if 0 ≤ s then ((r * 2 ^ s.toNat : Nat) : ℚ) else (r : ℚ) / ((2 ^ (-s).toNat : Nat) : ℚ)
    if 971 < s ∨ (s = 971 ∧ 2 ^ 53 ≤ r) then .inf (decide (q < 0))
    else .fin (if q < 0 then -v else v)

/-- Go `a < b` on `float64`: false as soon as one side is NaN. -/
def F64.lt : F64 → F64 → Bool
  | .fin a, .fin b => decide (a < b)
  | .fin _, .inf neg => !neg
  | .inf neg, .fin _ => neg
  | .inf a, .inf b => a && !b
  | _, _ => false

/-- Go `a * b` on `float64`. -/
def F64.mul : F64 → F64 → F64
  | .fin a, .fin b => roundF64 (a * b)
  | .fin a, .inf neg => if a = 0 then .nan else .inf (decide (a < 0) != neg)
  | .inf neg, .fin b => if b = 0 then .nan else .inf (neg != decide (b < 0))
  | .inf a, .inf b => .inf (a != b)
  | _, _ => .nan

/-- Go `float64(length)` for the length of a slice. -/
def F64.ofNat (n : Nat) : F64 := roundF64 (n : ℚ)

/-- The exact value of a finite `float64`, `0` for the others. -/
def F64.toRat : F64 → ℚ
  | .fin q => q
  | _ => 0

/-- An order-preserving image of the `float64` values in the rationals, NaN
sitting with `0` (a proof device: the scan of `setNext` treats a NaN weight as
it treats the weight `0`). -/
def F64.rank : F64 → ℚ
  | .fin q => q / (1 + |q|)
  | .inf neg => if neg then -1 else 1
  | .nan => 0

namespace Rounded

/-- Go `PriorityQueueOptions`, the fields being `float64`. -/
structure PriorityQueueOptions where
  WeightImmediate : F64
  WeightHigh : F64
  WeightMedium : F64
  WeightLow : F64

/-- Go `priorityQueue`, the weights being `float64`. -/
structure priorityQueue where
  nodeHeap : Priority → List QItem
  nextPriority : Priority
  heapWeight : Priority → F64
  heapWeightConfig : Priority → F64
  length : Int

/-- The defaults that `NewPriorityQueue` starts from: the constants `100`,
`0.8`, `0.6`, `0.3` converted to `float64`. -/
def defaultQueueOptions : PriorityQueueOptions :=
  { WeightImmediate := roundF64 100, WeightHigh := roundF64 (4 / 5),
    WeightMedium := roundF64 (3 / 5), WeightLow := roundF64 (3 / 10) }

/-- The map literal `{Immediate: .., High: .., Medium: .., Low: ..}`; a key
that is absent reads as `0`. -/
def configMap (opts : PriorityQueueOptions) : Priority → F64 := fun p =>
  if p = Immediate then opts.WeightImmediate
  else if p = High then opts.WeightHigh
  else if p = Medium then opts.WeightMedium
  else if p = Low then opts.WeightLow
  else .fin 0

/-- Go `NewPriorityQueue`. -/
def NewPriorityQueue (optionFunc : List (PriorityQueueOptions → PriorityQueueOptions)) :
    priorityQueue :=
  let opts :=
    match optionFunc with
    | [] => defaultQueueOptions
    | f :: _ => f defaultQueueOptions
  { nodeHeap := fun _ => []
    nextPriority := 0
    heapWeight := fun _ => .fin 0
    heapWeightConfig := configMap opts
    length := 0 }

/-- A new queue whose option function overwrites all four multipliers. -/
def newQueue (opts : PriorityQueueOptions) : priorityQueue :=
  NewPriorityQueue [fun _ => opts]

/-- The multipliers `NewHttpClient` passes by default: the constants `100`,
`0.8`, `0.6`, `0.4` converted to `float64`. -/
def clientOptions : PriorityQueueOptions :=
  { WeightImmediate := roundF64 100, WeightHigh := roundF64 (4 / 5),
    WeightMedium := roundF64 (3 / 5), WeightLow := roundF64 (2 / 5) }

/-- The client's multipliers with the Low multiplier set to `+Inf`. -/
def lowInfOptions : PriorityQueueOptions :=
  { WeightImmediate := roundF64 100, WeightHigh := roundF64 (4 / 5),
    WeightMedium := roundF64 (3 / 5), WeightLow := .inf false }

/-- Go `(*priorityQueue).updateHeapWeight`. -/
def updateHeapWeight (pq : priorityQueue) (priority : Priority) : priorityQueue :=
  let length := (pq.nodeHeap priority).length
  let weightMultiplier := pq.heapWeightConfig priority
  { pq with
    heapWeight := Function.update pq.heapWeight priority
      (F64.mul (F64.ofNat length) weightMultiplier) }

/-- One iteration of the loop of `setNext`, on the pair `(nextPriority, max)`. -/
def setNextStep (heapWeight : Priority → F64) (acc : Priority × F64) (priority : Priority) :
    Priority × F64 :=
  if F64.lt acc.2 (heapWeight priority) then (priority, heapWeight priority) else acc

/-- The loop of `setNext`, started from `nextPriority = 0`, `max = 0`. -/
def scanNext (heapWeight : Priority → F64) : Priority :=
  (scanOrder.foldl (setNextStep heapWeight) (0, .fin 0)).1

/-- Go `(*priorityQueue).setNext`. -/
def setNext (pq : priorityQueue) : priorityQueue :=
  { pq with nextPriority := scanNext pq.heapWeight }

/-- Go `(*priorityQueue).Push`. -/
def Push (pq : priorityQueue) (node : QItem) : priorityQueue :=
  let pq1 := { pq with
    nodeHeap := Function.update pq.nodeHeap node.Priority (pq.nodeHeap node.Priority ++ [node]) }
  let pq2 := updateHeapWeight pq1 node.Priority
  let pq3 := { pq2 with length := pq2.length + 1 }
  setNext pq3

/-- What a call of `Pop` does: return `(node, nil)` and a new state, return
`(nil, err)`, or stop with the runtime error of indexing an empty slice. -/
inductive PopOutcome where
  | ok (node : QItem) (pq : priorityQueue)
  | emptyErr (pq : priorityQueue)
  | indexPanic

/-- Go `(*priorityQueue).Pop`. -/
def Pop (pq : priorityQueue) : PopOutcome :=
  if pq.length = 0 then .emptyErr pq
  else
    match pq.nodeHeap pq.nextPriority with
    | [] => .indexPanic
    | node :: rest =>
      let pq1 := { pq with nodeHeap := Function.update pq.nodeHeap pq.nextPriority rest }
      let pq2 := updateHeapWeight pq1 node.Priority
      let pq3 := { pq2 with length := pq2.length - 1 }
      .ok node (setNext pq3)

/-- Run a list of calls from a state, collecting the entries that `Pop`
returns, in order. A `Pop` that returns the error leaves the state as it is;
a `Pop` that panics ends the run with `none`. -/
def exec (pq : priorityQueue) (out : List QItem) : List Op → Option (priorityQueue × List QItem)
  | [] => some (pq, out)
  | .push node :: ops => exec (Push pq node) out ops
  | .pop :: ops =>
    match Pop pq with
    | .ok node pq' => exec pq' (out ++ [node]) ops
    | .emptyErr pq' => exec pq' out ops
    | .indexPanic => none

/-- The weight of a level as the code computes it from the actual backlog:
`float64(len) * multiplier`. -/
def levelWeight (opts : PriorityQueueOptions) (pq : priorityQueue) (p : Priority) : F64 :=
  F64.mul (F64.ofNat (pq.nodeHeap p).length) (configMap opts p)

/-- The selection rule in the words of the specification, on `float64`
weights: the lowest-ordinal level whose weight is strictly positive and is the
maximum of the four, that is, no level has a greater weight; `0` (no level)
when there is none. A NaN weight is neither positive nor greater than another. -/
def selectByRule (w : Priority → F64) : Priority :=
  (scanOrder.find? (fun p =>
    F64.lt (.fin 0) (w p) && scanOrder.all (fun q => !F64.lt (w p) (w q)))).getD 0

/-- All four multipliers are finite numbers. -/
def FiniteOptions (opts : PriorityQueueOptions) : Prop :=
  ∀ p ∈ scanOrder, ∃ q, configMap opts p = .fin q

/-- Every entry stored under key `p` has priority `p`; the multipliers are
those of `opts`; every cached weight is the weight of the actual backlog, or
is the initial `0` of a level that is empty; and the cached next level is the
scan of the cached weights. -/
structure Coherent (opts : PriorityQueueOptions) (pq : priorityQueue) : Prop where
  keyed : ∀ p, ∀ x ∈ pq.nodeHeap p, x.priority = p
  config : pq.heapWeightConfig = configMap opts
  weights : ∀ p, pq.heapWeight p = levelWeight opts pq p ∨
    (pq.nodeHeap p = [] ∧ pq.heapWeight p = .fin 0)
  next : pq.nextPriority = scanNext pq.heapWeight

/-- The run that pushes `m` Medium entries and then `l` Low entries. -/
def mediumThenLow (m l : Nat) : List Op :=
  (List.range m).map (fun i => Op.push ⟨i, Medium⟩) ++
    (List.range l).map (fun i => Op.push ⟨m + i, Low⟩)

end Rounded

/-! ## The scan of `setNext` -/

theorem scan_pickLevel (a b c d : ℚ) (w : Priority → ℚ) (h1 : w 1 = a) (h2 : w 2 = b)
    (h3 : w 3 = c) (h4 : w 4 = d) : scanNext w = pickLevel a b c d := by
  have hu : scanNext w =
      (setNextStep w (setNextStep w (setNextStep w (setNextStep w (0, 0) 1) 2) 3) 4).1 := rfl
  rw [hu]
  simp only [setNextStep, gt_iff_lt, h1, h2, h3, h4]
  clear hu h1 h2 h3 h4
  generalize hR : pickLevel a b c d = R
  split_ifs <;> subst hR <;> unfold pickLevel <;> simp only [] at * <;>
    (split_ifs with g1 g2 g3 g4 <;> first
      | rfl
      | (exfalso; first
          | (refine g1 ⟨?_, ?_, ?_, ?_⟩ <;> linarith)
          | (refine g2 ⟨?_, ?_, ?_, ?_⟩ <;> linarith)
          | (refine g3 ⟨?_, ?_, ?_, ?_⟩ <;> linarith)
          | (refine g4 ⟨?_, ?_, ?_, ?_⟩ <;> linarith)
          | (obtain ⟨_, _, _, _⟩ := g1; linarith)))

theorem select_pickLevel (a b c d : ℚ) (w : Priority → ℚ) (h1 : w 1 = a) (h2 : w 2 = b)
    (h3 : w 3 = c) (h4 : w 4 = d) : selectByRule w = pickLevel a b c d := by
  have hm : maxWeight w = max (max a b) (max c d) := by
    simp only [maxWeight, Immediate, High, Medium, Low, h1, h2, h3, h4]
  have hf : ∀ P : Priority → Bool, (scanOrder.find? P).getD 0 =
      if P 1 then 1 else if P 2 then 2 else if P 3 then 3 else if P 4 then 4 else 0 := by
    intro P
    simp only [scanOrder, Immediate, High, Medium, Low, List.find?]
    cases P 1 <;> cases P 2 <;> cases P 3 <;> cases P 4 <;> rfl
  rw [selectByRule, hf, hm]
  simp only [decide_eq_true_eq, h1, h2, h3, h4]
  have ha : a ≤ max (max a b) (max c d) := le_max_of_le_left (le_max_left a b)
  have hb : b ≤ max (max a b) (max c d) := le_max_of_le_left (le_max_right a b)
  have hc : c ≤ max (max a b) (max c d) := le_max_of_le_right (le_max_left c d)
  have hd : d ≤ max (max a b) (max c d) := le_max_of_le_right (le_max_right c d)
  have hM : max (max a b) (max c d) = a ∨ max (max a b) (max c d) = b ∨
      max (max a b) (max c d) = c ∨ max (max a b) (max c d) = d := by
    rcases max_choice (max a b) (max c d) with h | h <;> rw [h]
    · rcases max_choice a b with h | h <;> rw [h] <;> simp
    · rcases max_choice c d with h | h <;> rw [h] <;> simp
  generalize max (max a b) (max c d) = M at ha hb hc hd hM ⊢
  unfold pickLevel
  by_cases h0 : 0 < M
  · rw [if_pos h0]
    by_cases e1 : a = M
    · rw [if_pos e1, if_pos ⟨by linarith, by linarith, by linarith, by linarith⟩]
    have l1 : a < M := lt_of_le_of_ne ha e1
    have r1 : ¬(0 < a ∧ b ≤ a ∧ c ≤ a ∧ d ≤ a) := by
      rintro ⟨_, _, _, _⟩; rcases hM with h | h | h | h <;> linarith
    rw [if_neg e1, if_neg r1]
    by_cases e2 : b = M
    · rw [if_pos e2, if_pos ⟨by linarith, by linarith, by linarith, by linarith⟩]
    have l2 : b < M := lt_of_le_of_ne hb e2
    have r2 : ¬(0 < b ∧ a < b ∧ c ≤ b ∧ d ≤ b) := by
      rintro ⟨_, _, _, _⟩; rcases hM with h | h | h | h <;> linarith
    rw [if_neg e2, if_neg r2]
    by_cases e3 : c = M
    · rw [if_pos e3, if_pos ⟨by linarith, by linarith, by linarith, by linarith⟩]
    have l3 : c < M := lt_of_le_of_ne hc e3
    have r3 : ¬(0 < c ∧ a < c ∧ b < c ∧ d ≤ c) := by
      rintro ⟨_, _, _, _⟩; rcases hM with h | h | h | h <;> linarith
    rw [if_neg e3, if_neg r3]
    have e4 : d = M := by rcases hM with h | h | h | h <;> first | exact h.symm | linarith
    rw [if_pos e4, if_pos ⟨by linarith, by linarith, by linarith, by linarith⟩]
  · rw [if_neg h0]
    have r1 : ¬(0 < a ∧ b ≤ a ∧ c ≤ a ∧ d ≤ a) := fun h => h0 (lt_of_lt_of_le h.1 ha)
    have r2 : ¬(0 < b ∧ a < b ∧ c ≤ b ∧ d ≤ b) := fun h => h0 (lt_of_lt_of_le h.1 hb)
    have r3 : ¬(0 < c ∧ a < c ∧ b < c ∧ d ≤ c) := fun h => h0 (lt_of_lt_of_le h.1 hc)
    have r4 : ¬(0 < d ∧ a < d ∧ b < d ∧ c < d) := fun h => h0 (lt_of_lt_of_le h.1 hd)
    rw [if_neg r1, if_neg r2, if_neg r3, if_neg r4]

theorem scanNext_pick (w : Priority → ℚ) : scanNext w = pickLevel (w 1) (w 2) (w 3) (w 4) :=
  scan_pickLevel _ _ _ _ w rfl rfl rfl rfl

theorem scanNext_eq_selectByRule (w : Priority → ℚ) : scanNext w = selectByRule w := by
  rw [scanNext_pick, select_pickLevel _ _ _ _ w rfl rfl rfl rfl]

theorem mem_scanOrder (p : Priority) : p ∈ scanOrder ↔ p = 1 ∨ p = 2 ∨ p = 3 ∨ p = 4 := by
  simp [scanOrder, Immediate, High, Medium, Low]

/-- The scan returns `0` or a level whose weight is strictly positive and at
least every other weight. -/
theorem scanNext_zero_or_max (w : Priority → ℚ) :
    scanNext w = 0 ∨
      (scanNext w ∈ scanOrder ∧ 0 < w (scanNext w) ∧ ∀ q ∈ scanOrder, w q ≤ w (scanNext w)) := by
  rw [scanNext_pick]
  unfold pickLevel
  split_ifs with g1 g2 g3 g4
  · right
    refine ⟨(mem_scanOrder _).2 (Or.inl rfl), g1.1, ?_⟩
    intro q hq
    rcases (mem_scanOrder q).1 hq with h | h | h | h <;> subst h <;> linarith [g1.2.1, g1.2.2.1, g1.2.2.2]
  · right
    refine ⟨(mem_scanOrder _).2 (Or.inr (Or.inl rfl)), g2.1, ?_⟩
    intro q hq
    rcases (mem_scanOrder q).1 hq with h | h | h | h <;> subst h <;> linarith [g2.2.1, g2.2.2.1, g2.2.2.2]
  · right
    refine ⟨(mem_scanOrder _).2 (Or.inr (Or.inr (Or.inl rfl))), g3.1, ?_⟩
    intro q hq
    rcases (mem_scanOrder q).1 hq with h | h | h | h <;> subst h <;> linarith [g3.2.1, g3.2.2.1, g3.2.2.2]
  · right
    refine ⟨(mem_scanOrder _).2 (Or.inr (Or.inr (Or.inr rfl))), g4.1, ?_⟩
    intro q hq
    rcases (mem_scanOrder q).1 hq with h | h | h | h <;> subst h <;> linarith [g4.2.1, g4.2.2.1, g4.2.2.2]
  · exact Or.inl rfl

/-- The scan returns a level as soon as one weight is strictly positive. -/
theorem scanNext_ne_zero (w : Priority → ℚ) (p : Priority) (hp : p ∈ scanOrder) (h : 0 < w p) :
    scanNext w ≠ 0 := by
  rw [scanNext_eq_selectByRule]
  have hM : 0 < maxWeight w := by
    unfold maxWeight Immediate High Medium Low
    rcases (mem_scanOrder p).1 hp with e | e | e | e <;> subst e <;> simp [lt_max_iff, h]
  have hmax : maxWeight w = w 1 ∨ maxWeight w = w 2 ∨ maxWeight w = w 3 ∨ maxWeight w = w 4 := by
    unfold maxWeight Immediate High Medium Low
    rcases max_choice (max (w 1) (w 2)) (max (w 3) (w 4)) with h | h <;> rw [h]
    · rcases max_choice (w 1) (w 2) with h | h <;> rw [h] <;> simp
    · rcases max_choice (w 3) (w 4) with h | h <;> rw [h] <;> simp
  have hf : ∀ P : Priority → Bool, (scanOrder.find? P).getD 0 =
      if P 1 then 1 else if P 2 then 2 else if P 3 then 3 else if P 4 then 4 else 0 := by
    intro P
    simp only [scanOrder, Immediate, High, Medium, Low, List.find?]
    cases P 1 <;> cases P 2 <;> cases P 3 <;> cases P 4 <;> rfl
  rw [selectByRule, if_pos hM, hf]
  simp only [decide_eq_true_eq]
  split_ifs with g1 g2 g3 g4
  · decide
  · decide
  · decide
  · decide
  · rcases hmax with h | h | h | h
    · exact absurd h.symm g1
    · exact absurd h.symm g2
    · exact absurd h.symm g3
    · exact absurd h.symm g4

/-! ## The fields after `Push` and `Pop` -/

theorem Push_nodeHeap (pq : priorityQueue) (node : QItem) :
    (Push pq node).nodeHeap =
      Function.update pq.nodeHeap node.priority (pq.nodeHeap node.priority ++ [node]) := rfl

theorem Push_heapWeight (pq : priorityQueue) (node : QItem) :
    (Push pq node).heapWeight =
      Function.update pq.heapWeight node.priority
        ((((pq.nodeHeap node.priority).length + 1 : Nat) : ℚ) * pq.heapWeightConfig node.priority) := by
  simp [Push, setNext, updateHeapWeight, QItem.Priority]

theorem Push_heapWeightConfig (pq : priorityQueue) (node : QItem) :
    (Push pq node).heapWeightConfig = pq.heapWeightConfig := rfl

theorem Push_length (pq : priorityQueue) (node : QItem) :
    (Push pq node).length = pq.length + 1 := rfl

theorem Push_nextPriority (pq : priorityQueue) (node : QItem) :
    (Push pq node).nextPriority = scanNext (Push pq node).heapWeight := rfl

/-- The state that a successful `Pop` leaves, field by field. -/
theorem Pop_ok_fields {pq pq' : priorityQueue} {node : QItem} (h : Pop pq = .ok node pq') :
    pq.length ≠ 0 ∧ ∃ rest, pq.nodeHeap pq.nextPriority = node :: rest ∧
      pq'.nodeHeap = Function.update pq.nodeHeap pq.nextPriority rest ∧
      pq'.heapWeight = Function.update pq.heapWeight node.priority
        (((pq'.nodeHeap node.priority).length : ℚ) * pq.heapWeightConfig node.priority) ∧
      pq'.heapWeightConfig = pq.heapWeightConfig ∧
      pq'.length = pq.length - 1 ∧
      pq'.nextPriority = scanNext pq'.heapWeight := by
  unfold Pop at h
  split_ifs at h with h0
  refine ⟨h0, ?_⟩
  cases hh : pq.nodeHeap pq.nextPriority with
  | nil => rw [hh] at h; cases h
  | cons x rest =>
    rw [hh] at h
    simp only [PopOutcome.ok.injEq] at h
    obtain ⟨hx, hpq⟩ := h
    subst hx
    subst hpq
    exact ⟨rest, rfl, rfl, rfl, rfl, rfl, rfl⟩

/-- `Pop` succeeds on a state whose counter is not zero and whose selected
slice is not empty. -/
theorem Pop_of_cons {pq : priorityQueue} {node : QItem} {rest : List QItem}
    (h0 : pq.length ≠ 0) (hh : pq.nodeHeap pq.nextPriority = node :: rest) :
    ∃ pq', Pop pq = .ok node pq' := by
  unfold Pop
  rw [if_neg h0, hh]
  exact ⟨_, rfl⟩

theorem Pop_emptyErr_iff (pq pq' : priorityQueue) :
    Pop pq = .emptyErr pq' ↔ pq.length = 0 ∧ pq' = pq := by
  unfold Pop
  split_ifs with h0
  · simp only [PopOutcome.emptyErr.injEq, h0, true_and]
    exact eq_comm
  · cases hh : pq.nodeHeap pq.nextPriority <;> simp [h0]

/-! ## Invariants of the reachable states -/

theorem scanNext_zero : scanNext (fun _ => (0 : ℚ)) = 0 := by
  rw [scanNext_pick]
  simp [pickLevel]

theorem coherent_new (fs : List (PriorityQueueOptions → PriorityQueueOptions)) :
    Coherent (NewPriorityQueue fs) := by
  refine ⟨?_, ?_, ?_⟩
  · intro p x hx
    simp [NewPriorityQueue] at hx
  · intro p
    simp [NewPriorityQueue, levelWeight, backlog]
  · exact scanNext_zero.symm

theorem coherent_push {pq : priorityQueue} (node : QItem) (h : Coherent pq) :
    Coherent (Push pq node) := by
  refine ⟨?_, ?_, rfl⟩
  · intro p x hx
    rw [Push_nodeHeap] at hx
    by_cases hp : p = node.priority
    · subst hp
      rw [Function.update_same, List.mem_append] at hx
      rcases hx with hx | hx
      · exact h.keyed _ x hx
      · rw [List.mem_singleton] at hx
        rw [hx]
    · rw [Function.update_noteq hp] at hx
      exact h.keyed p x hx
  · intro p
    rw [Push_heapWeight]
    unfold levelWeight backlog
    rw [Push_nodeHeap, Push_heapWeightConfig]
    by_cases hp : p = node.priority
    · subst hp
      simp
    · rw [Function.update_noteq hp, Function.update_noteq hp]
      exact h.weights p

theorem pop_priority {pq pq' : priorityQueue} {node : QItem} (h : Coherent pq)
    (hpop : Pop pq = .ok node pq') : node.priority = pq.nextPriority := by
  obtain ⟨_, rest, hh, _⟩ := Pop_ok_fields hpop
  exact h.keyed _ node (by rw [hh]; exact List.mem_cons_self _ _)

theorem coherent_pop {pq pq' : priorityQueue} {node : QItem} (h : Coherent pq)
    (hpop : Pop pq = .ok node pq') : Coherent pq' := by
  have hprio := pop_priority h hpop
  obtain ⟨_, rest, hh, hheap, hw, hcfg, _, hnext⟩ := Pop_ok_fields hpop
  refine ⟨?_, ?_, hnext⟩
  · intro p x hx
    rw [hheap] at hx
    by_cases hp : p = pq.nextPriority
    · subst hp
      rw [Function.update_same] at hx
      exact h.keyed _ x (by rw [hh]; exact List.mem_cons_of_mem _ hx)
    · rw [Function.update_noteq hp] at hx
      exact h.keyed p x hx
  · intro p
    rw [hw]
    unfold levelWeight backlog
    rw [hcfg]
    by_cases hp : p = node.priority
    · subst hp
      rw [Function.update_same]
    · rw [Function.update_noteq hp, hheap, Function.update_noteq (hprio ▸ hp)]
      exact h.weights p

/-- The sum of a function over the four levels after one of them is
overwritten. -/
theorem sum_update (f : Priority → List QItem) (p : Priority) (hp : p ∈ scanOrder)
    (l : List QItem) :
    (Function.update f p l 1).length + (Function.update f p l 2).length +
        (Function.update f p l 3).length + (Function.update f p l 4).length + (f p).length =
      (f 1).length + (f 2).length + (f 3).length + (f 4).length + l.length := by
  rcases (mem_scanOrder p).1 hp with e | e | e | e <;> subst e <;>
    simp [Function.update] <;> omega

theorem counted_new (fs : List (PriorityQueueOptions → PriorityQueueOptions)) :
    Counted (NewPriorityQueue fs) := by
  refine ⟨?_, ?_⟩
  · simp [NewPriorityQueue, backlog]
  · intro p _
    rfl

theorem counted_push {pq : priorityQueue} (node : QItem) (hn : node.priority ∈ scanOrder)
    (h : Counted pq) : Counted (Push pq node) := by
  refine ⟨?_, ?_⟩
  · have hs := sum_update pq.nodeHeap node.priority hn (pq.nodeHeap node.priority ++ [node])
    have ht := h.total
    rw [Push_length]
    unfold backlog Immediate High Medium Low at *
    rw [Push_nodeHeap]
    rw [List.length_append, List.length_singleton] at hs
    omega
  · intro p hp
    rw [Push_nodeHeap, Function.update_noteq (fun e : p = node.priority => hp (e ▸ hn))]
    exact h.outside p hp

theorem pop_level {pq pq' : priorityQueue} {node : QItem} (h : Counted pq)
    (hpop : Pop pq = .ok node pq') : pq.nextPriority ∈ scanOrder := by
  obtain ⟨_, rest, hh, _⟩ := Pop_ok_fields hpop
  by_contra hp
  rw [h.outside _ hp] at hh
  cases hh

theorem counted_pop {pq pq' : priorityQueue} {node : QItem} (h : Counted pq)
    (hpop : Pop pq = .ok node pq') : Counted pq' := by
  have hlev := pop_level h hpop
  obtain ⟨_, rest, hh, hheap, _, _, hlen, _⟩ := Pop_ok_fields hpop
  refine ⟨?_, ?_⟩
  · have hs := sum_update pq.nodeHeap pq.nextPriority hlev rest
    have ht := h.total
    rw [hlen]
    unfold backlog Immediate High Medium Low at *
    rw [hheap]
    rw [hh, List.length_cons] at hs
    omega
  · intro p hp
    rw [hheap, Function.update_noteq (fun e : p = pq.nextPriority => hp (e ▸ hlev))]
    exact h.outside p hp

/-! ## Runs of calls -/

/-- A property kept by every admitted `Push` and by every successful `Pop`
holds at the end of a run. -/
theorem exec_invariant (I : priorityQueue → Prop) (Q : QItem → Prop)
    (hpush : ∀ pq node, Q node → I pq → I (Push pq node))
    (hpop : ∀ pq node pq', I pq → Pop pq = .ok node pq' → I pq') :
    ∀ (ops : List Op) (pq : priorityQueue) (out : List QItem) (pq' : priorityQueue)
      (out' : List QItem), (∀ node ∈ pushedOf ops, Q node) → I pq →
      exec pq out ops = some (pq', out') → I pq' := by
  intro ops
  induction ops with
  | nil =>
    intro pq out pq' out' _ hI h
    simp only [exec, Option.some.injEq, Prod.mk.injEq] at h
    exact h.1 ▸ hI
  | cons op ops ih =>
    intro pq out pq' out' hQ hI h
    cases op with
    | push node =>
      simp only [exec] at h
      exact ih _ _ _ _ (fun n hn => hQ n (List.mem_cons_of_mem _ hn))
        (hpush pq node (hQ node (List.mem_cons_self _ _)) hI) h
    | pop =>
      simp only [exec] at h
      cases hp : Pop pq with
      | ok node pq1 =>
        rw [hp] at h
        exact ih _ _ _ _ hQ (hpop pq node pq1 hI hp) h
      | emptyErr pq1 =>
        rw [hp] at h
        obtain ⟨_, e⟩ := (Pop_emptyErr_iff pq pq1).1 hp
        subst e
        exact ih _ _ _ _ hQ hI h
      | indexPanic =>
        rw [hp] at h
        cases h

theorem exec_coherent {ops : List Op} {pq pq' : priorityQueue} {out out' : List QItem}
    (hI : Coherent pq) (h : exec pq out ops = some (pq', out')) : Coherent pq' :=
  exec_invariant Coherent (fun _ => True) (fun _ node _ hc => coherent_push node hc)
    (fun _ _ _ hc hp => coherent_pop hc hp) ops pq out pq' out' (fun _ _ => trivial) hI h

theorem exec_counted {ops : List Op} {pq pq' : priorityQueue} {out out' : List QItem}
    (hl : atLevels ops) (hI : Counted pq) (h : exec pq out ops = some (pq', out')) :
    Counted pq' :=
  exec_invariant Counted (fun node => node.priority ∈ scanOrder)
    (fun _ node hn hc => counted_push node hn hc)
    (fun _ _ _ hc hp => counted_pop hc hp) ops pq out pq' out' hl hI h

theorem exec_config {ops : List Op} {pq pq' : priorityQueue} {out out' : List QItem}
    (c : Priority → ℚ) (hI : pq.heapWeightConfig = c) (h : exec pq out ops = some (pq', out')) :
    pq'.heapWeightConfig = c :=
  exec_invariant (fun q => q.heapWeightConfig = c) (fun _ => True)
    (fun _ _ _ hc => hc)
    (fun _ _ _ hc hp => by
      obtain ⟨_, _, _, _, _, hcfg, _⟩ := Pop_ok_fields hp
      rw [hcfg]; exact hc)
    ops pq out pq' out' (fun _ _ => trivial) hI h

/-- In the scan a level is returned only when every lower-ordinal level has a
strictly smaller weight. -/
theorem scanNext_first (w : Priority → ℚ) (p q : Priority) (hp : p ∈ scanOrder)
    (hpq : p < q) (h : scanNext w = q) : w p < w q := by
  rw [scanNext_pick] at h
  unfold pickLevel at h
  split_ifs at h with g1 g2 g3 g4
  · subst h
    rcases (mem_scanOrder p).1 hp with e | e | e | e <;> subst e <;>
      exact absurd hpq (by decide)
  · subst h
    rcases (mem_scanOrder p).1 hp with e | e | e | e <;> subst e <;>
      first | exact absurd hpq (by decide) | linarith [g2.2.1]
  · subst h
    rcases (mem_scanOrder p).1 hp with e | e | e | e <;> subst e <;>
      first | exact absurd hpq (by decide) | linarith [g3.2.1, g3.2.2.1]
  · subst h
    rcases (mem_scanOrder p).1 hp with e | e | e | e <;> subst e <;>
      first | exact absurd hpq (by decide) | linarith [g4.2.1, g4.2.2.1, g4.2.2.2]
  · subst h
    rcases (mem_scanOrder p).1 hp with e | e | e | e <;> subst e <;>
      exact absurd hpq (by decide)

/-! ## Progress of `Pop` under strictly positive multipliers -/

theorem configMap_pos {opts : PriorityQueueOptions} (hpos : PositiveOptions opts)
    {p : Priority} (hp : p ∈ scanOrder) : 0 < configMap opts p := by
  obtain ⟨h1, h2, h3, h4⟩ := hpos
  rcases (mem_scanOrder p).1 hp with e | e | e | e <;> subst e <;>
    simp [configMap, Immediate, High, Medium, Low, h1, h2, h3, h4]

/-- With strictly positive multipliers, a coherent state whose counter is
positive caches a level of the four whose sequence is not empty. -/
theorem next_nonempty {opts : PriorityQueueOptions} {pq : priorityQueue}
    (hpos : PositiveOptions opts) (hc : Coherent pq) (hn : Counted pq)
    (hcfg : pq.heapWeightConfig = configMap opts) (h0 : 0 < pq.length) :
    pq.nextPriority ∈ scanOrder ∧ ∃ node rest, pq.nodeHeap pq.nextPriority = node :: rest := by
  have ht := hn.total
  have hex : ∃ p ∈ scanOrder, 0 < backlog pq p := by
    by_contra hne
    push_neg at hne
    have e1 := hne 1 ((mem_scanOrder 1).2 (Or.inl rfl))
    have e2 := hne 2 ((mem_scanOrder 2).2 (Or.inr (Or.inl rfl)))
    have e3 := hne 3 ((mem_scanOrder 3).2 (Or.inr (Or.inr (Or.inl rfl))))
    have e4 := hne 4 ((mem_scanOrder 4).2 (Or.inr (Or.inr (Or.inr rfl))))
    unfold Immediate High Medium Low at ht
    omega
  obtain ⟨p, hp, hb⟩ := hex
  have hwp : 0 < pq.heapWeight p := by
    rw [hc.weights p, levelWeight, hcfg]
    exact mul_pos (by exact_mod_cast hb) (configMap_pos hpos hp)
  have hne := scanNext_ne_zero pq.heapWeight p hp hwp
  rcases scanNext_zero_or_max pq.heapWeight with hz | ⟨hmem, hw, _⟩
  · exact absurd hz hne
  · rw [← hc.next] at hmem hw
    refine ⟨hmem, ?_⟩
    cases hh : pq.nodeHeap pq.nextPriority with
    | nil =>
      rw [hc.weights, levelWeight, backlog, hh] at hw
      simp at hw
    | cons node rest => exact ⟨node, rest, rfl⟩

/-! ## Order of service within a level -/

theorem atPriority_append (p : Priority) (l₁ l₂ : List QItem) :
    atPriority p (l₁ ++ l₂) = atPriority p l₁ ++ atPriority p l₂ := by
  simp [atPriority]

theorem atPriority_single (p : Priority) (x : QItem) :
    atPriority p [x] = if x.priority = p then [x] else [] := by
  by_cases h : x.priority = p <;> simp [atPriority, h]

/-- Along a run from a coherent state, at every level the entries popped so
far followed by the entries still queued are the entries popped and queued at
the start followed by the entries pushed, in order. -/
theorem exec_fifo : ∀ (ops : List Op) (pq : priorityQueue) (out : List QItem)
    (pq' : priorityQueue) (out' : List QItem), Coherent pq →
    exec pq out ops = some (pq', out') → ∀ p,
      atPriority p out' ++ pq'.nodeHeap p =
        atPriority p out ++ pq.nodeHeap p ++ atPriority p (pushedOf ops) := by
  intro ops
  induction ops with
  | nil =>
    intro pq out pq' out' _ h p
    simp only [exec, Option.some.injEq, Prod.mk.injEq] at h
    obtain ⟨h1, h2⟩ := h
    subst h1 h2
    simp [pushedOf, atPriority]
  | cons op ops ih =>
    intro pq out pq' out' hc h p
    cases op with
    | push node =>
      simp only [exec] at h
      rw [ih _ _ _ _ (coherent_push node hc) h p, Push_nodeHeap]
      have hp : pushedOf (Op.push node :: ops) = [node] ++ pushedOf ops := rfl
      rw [hp, atPriority_append, atPriority_single]
      by_cases e : node.priority = p
      · subst e
        rw [Function.update_same, if_pos rfl]
        simp only [List.append_assoc]
      · rw [Function.update_noteq (Ne.symm e), if_neg e]
        simp only [List.append_assoc, List.nil_append]
    | pop =>
      simp only [exec] at h
      have hp : pushedOf (Op.pop :: ops) = pushedOf ops := rfl
      rw [hp]
      cases hpop : Pop pq with
      | ok node pq1 =>
        rw [hpop] at h
        rw [ih _ _ _ _ (coherent_pop hc hpop) h p]
        have hprio := pop_priority hc hpop
        obtain ⟨_, rest, hh, hheap, _⟩ := Pop_ok_fields hpop
        rw [atPriority_append, atPriority_single, hheap]
        by_cases e : node.priority = p
        · rw [if_pos e]
          have e' : pq.nextPriority = p := hprio ▸ e
          subst e'
          rw [Function.update_same, hh]
          simp only [List.append_assoc, List.singleton_append]
        · rw [if_neg e, Function.update_noteq (fun e' : p = pq.nextPriority => e (hprio.trans e'.symm))]
          simp only [List.append_nil]
      | emptyErr pq1 =>
        rw [hpop] at h
        obtain ⟨_, e⟩ := (Pop_emptyErr_iff pq pq1).1 hpop
        subst e
        exact ih _ _ _ _ hc h p
      | indexPanic =>
        rw [hpop] at h
        cases h

/-- The order lemma from a new queue. -/
theorem level_order_from_new (opts : PriorityQueueOptions) (ops : List Op)
    (pq : priorityQueue) (out : List QItem)
    (h : exec (newQueue opts) [] ops = some (pq, out)) (p : Priority) :
    atPriority p out ++ pq.nodeHeap p = atPriority p (pushedOf ops) := by
  have hf := exec_fifo ops (newQueue opts) [] pq out (coherent_new _) h p
  rw [hf]
  simp [atPriority, newQueue, NewPriorityQueue]

/-! ## Draining the queue -/

theorem reached_new (opts : PriorityQueueOptions) : Reached opts (newQueue opts) :=
  ⟨coherent_new _, counted_new _, rfl⟩

theorem reached_push {opts : PriorityQueueOptions} {pq : priorityQueue} (node : QItem)
    (hn : node.priority ∈ scanOrder) (h : Reached opts pq) : Reached opts (Push pq node) :=
  ⟨coherent_push node h.coherent, counted_push node hn h.counted, h.config⟩

theorem reached_pop {opts : PriorityQueueOptions} {pq pq' : priorityQueue} {node : QItem}
    (h : Reached opts pq) (hpop : Pop pq = .ok node pq') : Reached opts pq' := by
  refine ⟨coherent_pop h.coherent hpop, counted_pop h.counted hpop, ?_⟩
  obtain ⟨_, _, _, _, _, hcfg, _⟩ := Pop_ok_fields hpop
  rw [hcfg]
  exact h.config

theorem reached_length_nonneg {opts : PriorityQueueOptions} {pq : priorityQueue}
    (h : Reached opts pq) : 0 ≤ pq.length := by
  rw [h.counted.total]
  exact Int.natCast_nonneg _

/-- With strictly positive multipliers `Pop` does not panic on a reached
state: it returns the error when the counter is `0` and an entry otherwise. -/
theorem reached_pop_total {opts : PriorityQueueOptions} {pq : priorityQueue}
    (hpos : PositiveOptions opts) (h : Reached opts pq) :
    (pq.length = 0 ∧ Pop pq = .emptyErr pq) ∨
      (0 < pq.length ∧ ∃ node pq', Pop pq = .ok node pq') := by
  by_cases h0 : pq.length = 0
  · exact Or.inl ⟨h0, (Pop_emptyErr_iff pq pq).2 ⟨h0, rfl⟩⟩
  · have hlt : 0 < pq.length := lt_of_le_of_ne (reached_length_nonneg h) (Ne.symm h0)
    obtain ⟨_, node, rest, hh⟩ := next_nonempty hpos h.coherent h.counted h.config hlt
    obtain ⟨pq', hpop⟩ := Pop_of_cons h0 hh
    exact Or.inr ⟨hlt, node, pq', hpop⟩

/-- With strictly positive multipliers a run of pushes at the four levels and
pops from a reached state does not panic. -/
theorem exec_total {opts : PriorityQueueOptions} (hpos : PositiveOptions opts) :
    ∀ (ops : List Op) (pq : priorityQueue) (out : List QItem), atLevels ops →
      Reached opts pq → ∃ pq' out', exec pq out ops = some (pq', out') ∧ Reached opts pq' := by
  intro ops
  induction ops with
  | nil =>
    intro pq out _ h
    exact ⟨pq, out, rfl, h⟩
  | cons op ops ih =>
    intro pq out hl h
    cases op with
    | push node =>
      simp only [exec]
      exact ih _ _ (fun n hn => hl n (List.mem_cons_of_mem _ hn))
        (reached_push node (hl node (List.mem_cons_self _ _)) h)
    | pop =>
      simp only [exec]
      rcases reached_pop_total hpos h with ⟨_, he⟩ | ⟨_, node, pq1, hp⟩
      · rw [he]
        exact ih _ _ hl h
      · rw [hp]
        exact ih _ _ hl (reached_pop h hp)

/-- With strictly positive multipliers, draining a reached state whose counter
is `n` ends, for every fuel above `n`, in one and the same state with counter
`0`, and keeps at every level the order of the entries. -/
theorem drain_total {opts : PriorityQueueOptions} (hpos : PositiveOptions opts) :
    ∀ (n : Nat) (pq : priorityQueue) (out : List QItem), Reached opts pq →
      pq.length = (n : Int) →
      ∃ pq' out', (∀ fuel, n < fuel → drain fuel pq out = some (pq', out')) ∧
        Reached opts pq' ∧ pq'.length = 0 ∧
        ∀ p, atPriority p out' ++ pq'.nodeHeap p = atPriority p out ++ pq.nodeHeap p := by
  intro n
  induction n with
  | zero =>
    intro pq out h hlen
    refine ⟨pq, out, ?_, h, by simpa using hlen, fun _ => rfl⟩
    intro fuel hf
    obtain ⟨k, rfl⟩ : ∃ k, fuel = k + 1 := ⟨fuel - 1, by omega⟩
    have he : Pop pq = .emptyErr pq := (Pop_emptyErr_iff pq pq).2 ⟨by simpa using hlen, rfl⟩
    simp only [drain, he]
  | succ n ih =>
    intro pq out h hlen
    rcases reached_pop_total hpos h with ⟨h0, _⟩ | ⟨_, node, pq1, hp⟩
    · rw [h0] at hlen
      omega
    · have hprio := pop_priority h.coherent hp
      obtain ⟨_, rest, hh, hheap, _, _, hl1, _⟩ := Pop_ok_fields hp
      have hlen1 : pq1.length = (n : Int) := by
        rw [hl1, hlen]
        push_cast
        ring
      obtain ⟨pq', out', hd, hr, hz, hord⟩ := ih pq1 (out ++ [node]) (reached_pop h hp) hlen1
      refine ⟨pq', out', ?_, hr, hz, ?_⟩
      · intro fuel hf
        obtain ⟨k, rfl⟩ : ∃ k, fuel = k + 1 := ⟨fuel - 1, by omega⟩
        simp only [drain, hp]
        exact hd k (by omega)
      · intro p
        rw [hord p, atPriority_append, atPriority_single, hheap]
        by_cases e : node.priority = p
        · rw [if_pos e]
          have e' : pq.nextPriority = p := hprio ▸ e
          subst e'
          rw [Function.update_same, hh]
          simp only [List.append_assoc, List.singleton_append]
        · rw [if_neg e,
            Function.update_noteq (fun e' : p = pq.nextPriority => e (hprio.trans e'.symm))]
          simp only [List.append_nil]

/-- In a counted state whose counter is `0` no key holds an entry. -/
theorem counted_zero_empty {pq : priorityQueue} (h : Counted pq) (h0 : pq.length = 0)
    (p : Priority) : pq.nodeHeap p = [] := by
  by_cases hp : p ∈ scanOrder
  · have ht := h.total
    rw [h0] at ht
    unfold backlog Immediate High Medium Low at ht
    have hz : (pq.nodeHeap p).length = 0 := by
      rcases (mem_scanOrder p).1 hp with e | e | e | e <;> subst e <;> omega
    exact List.length_eq_zero.1 hz
  · exact h.outside p hp

/-- Two lists that agree level by level are permutations of each other. -/
theorem perm_of_atPriority {l₁ l₂ : List QItem}
    (h : ∀ p, atPriority p l₁ = atPriority p l₂) : List.Perm l₁ l₂ := by
  rw [List.perm_iff_count]
  intro x
  have e1 : List.count x (atPriority x.priority l₁) = List.count x l₁ :=
    List.count_filter (by simp)
  have e2 : List.count x (atPriority x.priority l₂) = List.count x l₂ :=
    List.count_filter (by simp)
  rw [← e1, ← e2, h]

/-! ## Which level a reached state selects -/

theorem pickLevel_one_iff (a b c d : ℚ) :
    pickLevel a b c d = 1 ↔ 0 < a ∧ b ≤ a ∧ c ≤ a ∧ d ≤ a := by
  unfold pickLevel
  split_ifs with g1 g2 g3 g4
  · exact ⟨fun _ => g1, fun _ => rfl⟩
  · exact ⟨fun h => absurd h (by decide), fun h => absurd h g1⟩
  · exact ⟨fun h => absurd h (by decide), fun h => absurd h g1⟩
  · exact ⟨fun h => absurd h (by decide), fun h => absurd h g1⟩
  · exact ⟨fun h => absurd h (by decide), fun h => absurd h g1⟩

theorem pickLevel_four_iff (a b c d : ℚ) :
    pickLevel a b c d = 4 ↔ 0 < d ∧ a < d ∧ b < d ∧ c < d := by
  unfold pickLevel
  split_ifs with g1 g2 g3 g4
  · refine ⟨fun h => absurd h (by decide), fun h => ?_⟩
    linarith [g1.2.2.2, h.2.1]
  · refine ⟨fun h => absurd h (by decide), fun h => ?_⟩
    linarith [g2.2.2.2, h.2.2.1]
  · refine ⟨fun h => absurd h (by decide), fun h => ?_⟩
    linarith [g3.2.2.2, h.2.2.2]
  · exact ⟨fun _ => g4, fun _ => rfl⟩
  · exact ⟨fun h => absurd h (by decide), fun h => absurd h g4⟩

/-- The cached next level of a reached state, from the four backlogs and the
four multipliers. -/
theorem reached_next {opts : PriorityQueueOptions} {pq : priorityQueue}
    (h : Reached opts pq) :
    pq.nextPriority =
      pickLevel ((backlog pq Immediate : ℚ) * opts.WeightImmediate)
        ((backlog pq High : ℚ) * opts.WeightHigh)
        ((backlog pq Medium : ℚ) * opts.WeightMedium)
        ((backlog pq Low : ℚ) * opts.WeightLow) := by
  rw [h.coherent.next]
  apply scan_pickLevel <;> rw [h.coherent.weights, levelWeight, h.config] <;>
    simp [configMap, Immediate, High, Medium, Low]

/-- A run of pushes at the four levels and pops from a new queue ends in a
reached state. -/
theorem exec_reached {opts : PriorityQueueOptions} {ops : List Op} {pq : priorityQueue}
    {out : List QItem} (hl : atLevels ops) (h : exec (newQueue opts) [] ops = some (pq, out)) :
    Reached opts pq :=
  ⟨exec_coherent (coherent_new _) h, exec_counted hl (counted_new _) h, exec_config _ rfl h⟩

/-- In a reached state whose cached next level is not `0`, `Pop` returns an
entry of that level. -/
theorem pop_of_next_level {opts : PriorityQueueOptions} {pq : priorityQueue}
    (h : Reached opts pq) (hne : pq.nextPriority ≠ 0) :
    ∃ node pq', Pop pq = .ok node pq' ∧ node.priority = pq.nextPriority := by
  have hc := h.coherent
  rcases scanNext_zero_or_max pq.heapWeight with hz | ⟨hmem, hw, _⟩
  · exact absurd (hc.next.trans hz) hne
  · rw [← hc.next] at hmem hw
    cases hh : pq.nodeHeap pq.nextPriority with
    | nil =>
      rw [hc.weights, levelWeight, backlog, hh] at hw
      simp at hw
    | cons node rest =>
      have hb : 0 < backlog pq pq.nextPriority := by
        unfold backlog
        rw [hh]
        exact Nat.succ_pos _
      have ht := h.counted.total
      have h0 : pq.length ≠ 0 := by
        unfold Immediate High Medium Low at ht
        rcases (mem_scanOrder _).1 hmem with e | e | e | e <;> rw [e] at hb <;> omega
      obtain ⟨pq', hpop⟩ := Pop_of_cons h0 hh
      exact ⟨node, pq', hpop, pop_priority hc hpop⟩

/-! ## Runs of pushes -/

theorem pushedOf_map_push (nodes : List QItem) : pushedOf (nodes.map Op.push) = nodes := by
  induction nodes with
  | nil => rfl
  | cons n nodes ih => simp only [List.map_cons, pushedOf, ih]

theorem exec_pushes (nodes : List QItem) : ∀ (pq : priorityQueue) (out : List QItem),
    exec pq out (nodes.map Op.push) = some (nodes.foldl Push pq, out) := by
  induction nodes with
  | nil => intro pq out; rfl
  | cons n nodes ih =>
    intro pq out
    simp only [List.map_cons, exec, List.foldl_cons]
    exact ih _ _

theorem immediateThenLow_pushed (n : Nat) :
    immediateThenLow n =
      (({ task := 0, priority := Immediate } : QItem) ::
        (List.range n).map (fun i => ({ task := i + 1, priority := Low } : QItem))).map Op.push := by
  simp [immediateThenLow, List.map_map, Function.comp_def]

theorem immediateThenLow_atLevels (n : Nat) : atLevels (immediateThenLow n) := by
  intro node hn
  rw [immediateThenLow_pushed, pushedOf_map_push] at hn
  simp only [List.mem_cons, List.mem_map, List.mem_range] at hn
  rcases hn with rfl | ⟨i, _, rfl⟩ <;> simp [scanOrder]

/-- The state after one Immediate push and `n` Low pushes on a new queue: the
run ends without a pop, the state is reached, and its backlogs are `1`, `0`,
`0` and `n`. -/
theorem immediateThenLow_state (opts : PriorityQueueOptions) (n : Nat) :
    ∃ pq, exec (newQueue opts) [] (immediateThenLow n) = some (pq, []) ∧ Reached opts pq ∧
      pq.nodeHeap Immediate = [⟨0, Immediate⟩] ∧ backlog pq High = 0 ∧
      backlog pq Medium = 0 ∧ backlog pq Low = n := by
  have hex := exec_pushes (({ task := 0, priority := Immediate } : QItem) ::
        (List.range n).map (fun i => ({ task := i + 1, priority := Low } : QItem)))
        (newQueue opts) []
  rw [← immediateThenLow_pushed] at hex
  refine ⟨_, hex, exec_reached (immediateThenLow_atLevels n) hex, ?_⟩
  have hf := fun p => level_order_from_new opts _ _ _ hex p
  rw [immediateThenLow_pushed, pushedOf_map_push] at hf
  simp only [atPriority, List.filter_nil, List.nil_append] at hf
  unfold backlog
  rw [hf Immediate, hf High, hf Medium, hf Low]
  simp [Immediate, High, Medium, Low, List.filter_map, Function.comp_def]

/-! ## The claims -/

/-- C5. Whatever the multipliers, after every run of `Push` calls at the four
levels and `Pop` calls from a new queue, `Len` is the sum of the lengths of the
four per-level sequences, and `Empty` is true exactly when that sum is `0`. -/
theorem len_is_sum_of_levels (opts : PriorityQueueOptions) (ops : List Op)
    (pq : priorityQueue) (out : List QItem) (hl : atLevels ops)
    (h : exec (newQueue opts) [] ops = some (pq, out)) :
    Len pq = ((pq.nodeHeap Immediate).length + (pq.nodeHeap High).length +
        (pq.nodeHeap Medium).length + (pq.nodeHeap Low).length : Nat) ∧
      (Empty pq = true ↔ (pq.nodeHeap Immediate).length + (pq.nodeHeap High).length +
        (pq.nodeHeap Medium).length + (pq.nodeHeap Low).length = 0) := by
  have hc : Counted pq := exec_counted hl (counted_new _) h
  have ht := hc.total
  unfold backlog at ht
  refine ⟨ht, ?_⟩
  unfold Empty Len
  rw [decide_eq_true_eq, ht]
  exact Int.natCast_eq_zero

/-- C5, on the run push Low, push High, pop, push Immediate with the client's
multipliers. -/
theorem len_is_sum_of_levels_witness :
    ∃ pq out, exec (newQueue clientOptions) []
        [.push ⟨1, Low⟩, .push ⟨2, High⟩, .pop, .push ⟨3, Immediate⟩] = some (pq, out) ∧
      Len pq = 2 ∧
      Len pq = ((pq.nodeHeap Immediate).length + (pq.nodeHeap High).length +
        (pq.nodeHeap Medium).length + (pq.nodeHeap Low).length : Nat) :=
  ⟨_, _, by with_unfolding_all rfl, by with_unfolding_all rfl,
    (len_is_sum_of_levels clientOptions
      [.push ⟨1, Low⟩, .push ⟨2, High⟩, .pop, .push ⟨3, Immediate⟩] _ _
      (by simp [atLevels, pushedOf, scanOrder, Immediate, High, Medium, Low])
      (by with_unfolding_all rfl)).1⟩

/-- C6. `Pop` returns the error exactly on a state whose counter is `0`, and
the state it leaves is then the state it found, field for field. -/
theorem pop_error_iff_empty (pq pq' : priorityQueue) :
    Pop pq = .emptyErr pq' ↔ pq.length = 0 ∧ pq' = pq :=
  Pop_emptyErr_iff pq pq'

/-- C9. From any state and for any entry (at one of the four levels or not),
`Push` returns a state in which the sequence of the entry's level is the
previous one with the entry appended, every other sequence is as before, the
multipliers are as before and the counter is one more. -/
theorem push_appends_and_frames (pq : priorityQueue) (node : QItem) :
    (Push pq node).nodeHeap node.priority = pq.nodeHeap node.priority ++ [node] ∧
      (∀ p, p ≠ node.priority → (Push pq node).nodeHeap p = pq.nodeHeap p) ∧
      (Push pq node).heapWeightConfig = pq.heapWeightConfig ∧
      (Push pq node).length = pq.length + 1 := by
  refine ⟨?_, ?_, rfl, rfl⟩
  · rw [Push_nodeHeap, Function.update_same]
  · intro p hp
    rw [Push_nodeHeap, Function.update_noteq hp]

/-- C2. With all four multipliers strictly positive, in every state reached
from a new queue by `Push` calls at the four levels and `Pop` calls, when the
counter is positive the cached next level is one of the four and holds at
least one entry, and `Pop` succeeds: it returns the head of that level's
sequence, leaves the tail at that level, leaves the other levels as they were,
and lowers the counter by exactly one. -/
theorem pop_serves_head_of_next (opts : PriorityQueueOptions) (ops : List Op)
    (pq : priorityQueue) (out : List QItem) (hpos : PositiveOptions opts) (hl : atLevels ops)
    (h : exec (newQueue opts) [] ops = some (pq, out)) (h0 : 0 < Len pq) :
    pq.nextPriority ∈ scanOrder ∧
      ∃ node rest pq', pq.nodeHeap pq.nextPriority = node :: rest ∧
        Pop pq = .ok node pq' ∧
        node.priority = pq.nextPriority ∧
        pq'.nodeHeap pq.nextPriority = rest ∧
        (∀ p, p ≠ pq.nextPriority → pq'.nodeHeap p = pq.nodeHeap p) ∧
        Len pq' = Len pq - 1 := by
  have hc : Coherent pq := exec_coherent (coherent_new _) h
  have hn : Counted pq := exec_counted hl (counted_new _) h
  have hcfg : pq.heapWeightConfig = configMap opts := exec_config _ rfl h
  obtain ⟨hmem, node, rest, hh⟩ := next_nonempty hpos hc hn hcfg h0
  obtain ⟨pq', hpop⟩ := Pop_of_cons (ne_of_gt h0) hh
  obtain ⟨_, rest', hh', hheap, _, _, hlen, _⟩ := Pop_ok_fields hpop
  have hr : rest' = rest := by
    rw [hh] at hh'
    exact (List.cons.inj hh').2.symm
  subst hr
  refine ⟨hmem, node, rest', pq', hh, hpop, pop_priority hc hpop, ?_, ?_, hlen⟩
  · rw [hheap, Function.update_same]
  · intro p hp
    rw [hheap, Function.update_noteq hp]

/-- C2, on the state after pushing two Low entries and one High entry with the
client's multipliers: the count is `3`, the cached level is one of the four
and `Pop` returns the head of its sequence. -/
theorem pop_serves_head_of_next_witness :
    PositiveOptions clientOptions ∧
      atLevels [.push ⟨1, Low⟩, .push ⟨2, Low⟩, .push ⟨3, High⟩] ∧
      exec (newQueue clientOptions) [] [.push ⟨1, Low⟩, .push ⟨2, Low⟩, .push ⟨3, High⟩] =
        some (Push (Push (Push (newQueue clientOptions) ⟨1, Low⟩) ⟨2, Low⟩) ⟨3, High⟩, []) ∧
      0 < Len (Push (Push (Push (newQueue clientOptions) ⟨1, Low⟩) ⟨2, Low⟩) ⟨3, High⟩) ∧
      (Push (Push (Push (newQueue clientOptions) ⟨1, Low⟩) ⟨2, Low⟩) ⟨3, High⟩).nextPriority
        ∈ scanOrder ∧
      ∃ node rest pq',
        (Push (Push (Push (newQueue clientOptions) ⟨1, Low⟩) ⟨2, Low⟩) ⟨3, High⟩).nodeHeap
          (Push (Push (Push (newQueue clientOptions) ⟨1, Low⟩) ⟨2, Low⟩) ⟨3, High⟩).nextPriority
            = node :: rest ∧
        Pop (Push (Push (Push (newQueue clientOptions) ⟨1, Low⟩) ⟨2, Low⟩) ⟨3, High⟩) =
          .ok node pq' :=
  have hw := pop_serves_head_of_next clientOptions
    [.push ⟨1, Low⟩, .push ⟨2, Low⟩, .push ⟨3, High⟩] _ []
    (by simp only [PositiveOptions, clientOptions]; norm_num)
    (by simp [atLevels, pushedOf, scanOrder, Immediate, High, Medium, Low])
    rfl (by decide)
  ⟨by simp only [PositiveOptions, clientOptions]; norm_num,
    by simp [atLevels, pushedOf, scanOrder, Immediate, High, Medium, Low],
    rfl, by decide, hw.1,
    hw.2.elim fun node hn => hn.elim fun rest hr => hr.elim fun pq' hp =>
      ⟨node, rest, pq', hp.1, hp.2.1⟩⟩

/-- C3. In every run of `Push` and `Pop` calls from a new queue, for every
priority `p`, the entries of priority `p` that `Pop` returned, in the order
returned, followed by the entries still queued at `p`, are the entries of
priority `p` that were pushed, in the order pushed: the entries of one level
come out in the order they went in, none overtaking an earlier one. -/
theorem fifo_within_level (opts : PriorityQueueOptions) (ops : List Op)
    (pq : priorityQueue) (out : List QItem)
    (h : exec (newQueue opts) [] ops = some (pq, out)) (p : Priority) :
    atPriority p out ++ pq.nodeHeap p = atPriority p (pushedOf ops) :=
  level_order_from_new opts ops pq out h p

/-- C3, on the run push L1, push L2 (Low), push H (High), pop, pop with the
client's multipliers: H and L1 are popped, L2 is still queued. -/
theorem fifo_within_level_witness :
    ∃ pq, exec (newQueue clientOptions) []
        [.push ⟨1, Low⟩, .push ⟨2, Low⟩, .push ⟨3, High⟩, .pop, .pop] =
          some (pq, [⟨3, High⟩, ⟨1, Low⟩]) ∧
      atPriority Low [⟨3, High⟩, ⟨1, Low⟩] ++ pq.nodeHeap Low =
        atPriority Low
          (pushedOf [.push ⟨1, Low⟩, .push ⟨2, Low⟩, .push ⟨3, High⟩, .pop, .pop]) :=
  ⟨_, by with_unfolding_all rfl,
    fifo_within_level clientOptions
      [.push ⟨1, Low⟩, .push ⟨2, Low⟩, .push ⟨3, High⟩, .pop, .pop] _ _
      (by with_unfolding_all rfl) Low⟩

/-- C4. With all four multipliers strictly positive, every run of pushes at
the four levels with pops interleaved anywhere, from a new queue, completes
without a panic; calling `Pop` from there until it returns the error ends
(for every fuel above the counter, in the same state); the entries popped
over the whole run are a permutation of the entries pushed; and at the end
the counter is `0` and every level is empty. -/
theorem drain_returns_each_entry_once (opts : PriorityQueueOptions) (ops : List Op)
    (hpos : PositiveOptions opts) (hl : atLevels ops) :
    ∃ pq out pq' out', exec (newQueue opts) [] ops = some (pq, out) ∧
      (∀ fuel, pq.length.toNat < fuel → drain fuel pq out = some (pq', out')) ∧
      List.Perm out' (pushedOf ops) ∧
      Len pq' = 0 ∧
      ∀ p, pq'.nodeHeap p = [] := by
  obtain ⟨pq, out, hex, hr⟩ := exec_total hpos ops (newQueue opts) [] hl (reached_new opts)
  have hlen : pq.length = (pq.length.toNat : Int) :=
    (Int.toNat_of_nonneg (reached_length_nonneg hr)).symm
  obtain ⟨pq', out', hd, hr', hz, hord⟩ := drain_total hpos pq.length.toNat pq out hr hlen
  have hempty := counted_zero_empty hr'.counted hz
  refine ⟨pq, out, pq', out', hex, hd, ?_, hz, hempty⟩
  apply perm_of_atPriority
  intro p
  have h1 := hord p
  rw [hempty p, List.append_nil] at h1
  rw [h1]
  exact level_order_from_new opts ops pq out hex p

/-- C4, on the run push Low, push High, pop, push Immediate with the client's
multipliers. -/
theorem drain_returns_each_entry_once_witness :
    PositiveOptions clientOptions ∧
      atLevels [.push ⟨1, Low⟩, .push ⟨2, High⟩, .pop, .push ⟨3, Immediate⟩] ∧
      ∃ pq out pq' out', exec (newQueue clientOptions) []
          [.push ⟨1, Low⟩, .push ⟨2, High⟩, .pop, .push ⟨3, Immediate⟩] = some (pq, out) ∧
        (∀ fuel, pq.length.toNat < fuel → drain fuel pq out = some (pq', out')) ∧
        List.Perm out'
          (pushedOf [.push ⟨1, Low⟩, .push ⟨2, High⟩, .pop, .push ⟨3, Immediate⟩]) ∧
        Len pq' = 0 ∧
        ∀ p, pq'.nodeHeap p = [] :=
  ⟨by simp only [PositiveOptions, clientOptions]; norm_num,
    by simp [atLevels, pushedOf, scanOrder, Immediate, High, Medium, Low],
    drain_returns_each_entry_once clientOptions
      [.push ⟨1, Low⟩, .push ⟨2, High⟩, .pop, .push ⟨3, Immediate⟩]
      (by simp only [PositiveOptions, clientOptions]; norm_num)
      (by simp [atLevels, pushedOf, scanOrder, Immediate, High, Medium, Low])⟩

/-- C7 as stated fails: with the client's multipliers, after one Immediate push
and 251 Low pushes the Immediate level holds an entry, yet the cached next
level is Low (`251 * 2/5 > 1 * 100`) and `Pop` returns a Low entry. -/
theorem immediate_precedence_counterexample :
    ∃ pq, exec (newQueue clientOptions) [] (immediateThenLow 251) = some (pq, []) ∧
      pq.nodeHeap Immediate = [⟨0, Immediate⟩] ∧
      pq.nextPriority = Low ∧
      ∃ node pq', Pop pq = .ok node pq' ∧ node.priority = Low := by
  obtain ⟨pq, hex, hr, hI, hH, hM, hL⟩ := immediateThenLow_state clientOptions 251
  have hnext : pq.nextPriority = Low := by
    have hbI : backlog pq Immediate = 1 := by unfold backlog; rw [hI]; rfl
    rw [reached_next hr, hbI, hH, hM, hL]
    norm_num [pickLevel, clientOptions, Low]
  refine ⟨pq, hex, hI, hnext, ?_⟩
  obtain ⟨node, pq', hpop, hp⟩ := pop_of_next_level hr (by rw [hnext]; decide)
  exact ⟨node, pq', hpop, hp.trans hnext⟩

/-- C7, amended. With the client's multipliers `100`, `4/5`, `3/5`, `2/5`, in
every state reached from a new queue by pushes at the four levels and pops,
the cached next level is Immediate exactly when the Immediate level holds at
least one entry and its weight is at least the weight of each of High, Medium
and Low; `Pop` then returns an Immediate entry. In particular after one
Immediate push and then `n ≤ 250` Low pushes the cached level is Immediate. -/
theorem immediate_selected_iff_weight_bounds (ops : List Op) (pq : priorityQueue)
    (out : List QItem) (hl : atLevels ops)
    (h : exec (newQueue clientOptions) [] ops = some (pq, out)) :
    (pq.nextPriority = Immediate ↔
        0 < backlog pq Immediate ∧
          (4 / 5 : ℚ) * backlog pq High ≤ 100 * backlog pq Immediate ∧
          (3 / 5 : ℚ) * backlog pq Medium ≤ 100 * backlog pq Immediate ∧
          (2 / 5 : ℚ) * backlog pq Low ≤ 100 * backlog pq Immediate) ∧
      (pq.nextPriority = Immediate →
        ∃ node pq', Pop pq = .ok node pq' ∧ node.priority = Immediate) ∧
      (∀ n, ops = immediateThenLow n → n ≤ 250 → pq.nextPriority = Immediate) := by
  have hr : Reached clientOptions pq := exec_reached hl h
  have hiff : pq.nextPriority = Immediate ↔
      0 < backlog pq Immediate ∧
        (4 / 5 : ℚ) * backlog pq High ≤ 100 * backlog pq Immediate ∧
        (3 / 5 : ℚ) * backlog pq Medium ≤ 100 * backlog pq Immediate ∧
        (2 / 5 : ℚ) * backlog pq Low ≤ 100 * backlog pq Immediate := by
    rw [reached_next hr]
    unfold Immediate
    rw [pickLevel_one_iff]
    simp only [clientOptions]
    constructor
    · rintro ⟨h1, h2, h3, h4⟩
      refine ⟨?_, by linarith, by linarith, by linarith⟩
      have : (0 : ℚ) < backlog pq 1 := by linarith
      exact_mod_cast this
    · rintro ⟨h1, h2, h3, h4⟩
      have : (0 : ℚ) < backlog pq 1 := by exact_mod_cast h1
      exact ⟨by linarith, by linarith, by linarith, by linarith⟩
  refine ⟨hiff, ?_, ?_⟩
  · intro hn
    obtain ⟨node, pq', hpop, hp⟩ := pop_of_next_level hr (by rw [hn]; decide)
    exact ⟨node, pq', hpop, hp.trans hn⟩
  · intro n hops hle
    subst hops
    obtain ⟨pq2, hex, _, hI, hH, hM, hL⟩ := immediateThenLow_state clientOptions n
    rw [h] at hex
    simp only [Option.some.injEq, Prod.mk.injEq] at hex
    obtain ⟨e, _⟩ := hex
    subst e
    have hbI : backlog pq Immediate = 1 := by unfold backlog; rw [hI]; rfl
    rw [hiff, hbI, hH, hM, hL]
    have hq : (n : ℚ) ≤ 250 := by exact_mod_cast hle
    refine ⟨by decide, by norm_num, by norm_num, ?_⟩
    push_cast
    linarith

/-- C7 amended, on the state after one Immediate push and one Low push. -/
theorem immediate_selected_iff_weight_bounds_witness :
    atLevels [.push ⟨1, Immediate⟩, .push ⟨2, Low⟩] ∧
      exec (newQueue clientOptions) [] [.push ⟨1, Immediate⟩, .push ⟨2, Low⟩] =
        some (Push (Push (newQueue clientOptions) ⟨1, Immediate⟩) ⟨2, Low⟩, []) ∧
      ((Push (Push (newQueue clientOptions) ⟨1, Immediate⟩) ⟨2, Low⟩).nextPriority = Immediate →
        ∃ node pq', Pop (Push (Push (newQueue clientOptions) ⟨1, Immediate⟩) ⟨2, Low⟩) =
          .ok node pq' ∧ node.priority = Immediate) :=
  ⟨by simp [atLevels, pushedOf, scanOrder, Immediate, High, Medium, Low], rfl,
    (immediate_selected_iff_weight_bounds [.push ⟨1, Immediate⟩, .push ⟨2, Low⟩] _ []
      (by simp [atLevels, pushedOf, scanOrder, Immediate, High, Medium, Low]) rfl).2.1⟩

/-- C10. On a new queue with the client's multipliers, pushing L1 (Low),
L2 (Low) and H (High) in that order leaves the Low and High weights tied
(`2 * 2/5` against `1 * 4/5`) with High as the cached next level; three pops
return H, then L1, then L2, and a fourth `Pop` returns the error. -/
theorem scenario_low_low_high (l1 l2 h : Nat) :
    levelWeight (Push (Push (Push (newQueue clientOptions) ⟨l1, Low⟩) ⟨l2, Low⟩) ⟨h, High⟩) Low =
        levelWeight (Push (Push (Push (newQueue clientOptions) ⟨l1, Low⟩) ⟨l2, Low⟩) ⟨h, High⟩)
          High ∧
      (Push (Push (Push (newQueue clientOptions) ⟨l1, Low⟩) ⟨l2, Low⟩) ⟨h, High⟩).nextPriority =
        High ∧
      ∃ pq1 pq2 pq3,
        Pop (Push (Push (Push (newQueue clientOptions) ⟨l1, Low⟩) ⟨l2, Low⟩) ⟨h, High⟩) =
          .ok ⟨h, High⟩ pq1 ∧
        Pop pq1 = .ok ⟨l1, Low⟩ pq2 ∧
        Pop pq2 = .ok ⟨l2, Low⟩ pq3 ∧
        Pop pq3 = .emptyErr pq3 ∧
        exec (newQueue clientOptions) []
          [.push ⟨l1, Low⟩, .push ⟨l2, Low⟩, .push ⟨h, High⟩, .pop, .pop, .pop, .pop] =
          some (pq3, [⟨h, High⟩, ⟨l1, Low⟩, ⟨l2, Low⟩]) := by
  refine ⟨?_, ?_, ?_⟩
  · norm_num [levelWeight, backlog, Push, setNext, updateHeapWeight, newQueue,
      NewPriorityQueue, clientOptions, configMap, QItem.Priority, Low, High, Medium, Immediate,
      Function.update]
  · norm_num [Push, setNext, scanNext, scanOrder, setNextStep, updateHeapWeight, newQueue,
      NewPriorityQueue, clientOptions, configMap, QItem.Priority, Low, High, Medium, Immediate,
      Function.update]
  · norm_num [exec, Pop, Push, setNext, scanNext, scanOrder, setNextStep, updateHeapWeight,
      newQueue, NewPriorityQueue, clientOptions, configMap, QItem.Priority, Low, High, Medium,
      Immediate, Function.update]

/-- C8. With all four multipliers strictly positive, for every choice of the
backlogs of Immediate, High and Medium there is a bound `N` such that every
state reached from a new queue with those backlogs and at least `N` entries
at Low caches Low as next level, and `Pop` then returns a Low entry. With the
multipliers High `4/5` and Low `2/5`, and Immediate and Medium empty, Low is
the cached level exactly when the Low backlog is strictly more than twice the
High backlog. -/
theorem low_backlog_is_eventually_served :
    (∀ opts : PriorityQueueOptions, PositiveOptions opts → ∀ i h m : Nat, ∃ N : Nat,
        ∀ (ops : List Op) (pq : priorityQueue) (out : List QItem), atLevels ops →
          exec (newQueue opts) [] ops = some (pq, out) →
          backlog pq Immediate = i → backlog pq High = h → backlog pq Medium = m →
          N ≤ backlog pq Low →
          pq.nextPriority = Low ∧ ∃ node pq', Pop pq = .ok node pq' ∧ node.priority = Low) ∧
      (∀ opts : PriorityQueueOptions, opts.WeightHigh = 4 / 5 → opts.WeightLow = 2 / 5 →
        ∀ (ops : List Op) (pq : priorityQueue) (out : List QItem), atLevels ops →
          exec (newQueue opts) [] ops = some (pq, out) →
          backlog pq Immediate = 0 → backlog pq Medium = 0 →
          (pq.nextPriority = Low ↔ 2 * backlog pq High < backlog pq Low)) := by
  constructor
  · intro opts hpos i h m
    obtain ⟨p1, p2, p3, p4⟩ := hpos
    refine ⟨⌈((i : ℚ) * opts.WeightImmediate + (h : ℚ) * opts.WeightHigh +
      (m : ℚ) * opts.WeightMedium) / opts.WeightLow⌉₊ + 1, ?_⟩
    intro ops pq out hl hex hi hh hm hN
    have hr : Reached opts pq := exec_reached hl hex
    have ha : (0 : ℚ) ≤ (i : ℚ) * opts.WeightImmediate :=
      mul_nonneg (Nat.cast_nonneg _) p1.le
    have hb : (0 : ℚ) ≤ (h : ℚ) * opts.WeightHigh := mul_nonneg (Nat.cast_nonneg _) p2.le
    have hc : (0 : ℚ) ≤ (m : ℚ) * opts.WeightMedium := mul_nonneg (Nat.cast_nonneg _) p3.le
    have hceil := Nat.le_ceil (((i : ℚ) * opts.WeightImmediate + (h : ℚ) * opts.WeightHigh +
      (m : ℚ) * opts.WeightMedium) / opts.WeightLow)
    have hNq : ((⌈((i : ℚ) * opts.WeightImmediate + (h : ℚ) * opts.WeightHigh +
        (m : ℚ) * opts.WeightMedium) / opts.WeightLow⌉₊ + 1 : Nat) : ℚ) ≤ backlog pq Low := by
      exact_mod_cast hN
    push_cast at hNq
    have hlt : ((i : ℚ) * opts.WeightImmediate + (h : ℚ) * opts.WeightHigh +
        (m : ℚ) * opts.WeightMedium) / opts.WeightLow < backlog pq Low := by
      linarith
    rw [div_lt_iff₀ p4] at hlt
    have hlt4 : (i : ℚ) * opts.WeightImmediate + (h : ℚ) * opts.WeightHigh +
        (m : ℚ) * opts.WeightMedium < (backlog pq 4 : ℚ) * opts.WeightLow := hlt
    have hnext : pq.nextPriority = Low := by
      rw [reached_next hr, hi, hh, hm]
      unfold Low
      rw [pickLevel_four_iff]
      exact ⟨by linarith, by linarith, by linarith, by linarith⟩
    refine ⟨hnext, ?_⟩
    obtain ⟨node, pq', hpop, hp⟩ := pop_of_next_level hr (by rw [hnext]; decide)
    exact ⟨node, pq', hpop, hp.trans hnext⟩
  · intro opts hH hL ops pq out hl hex hi hm
    have hr : Reached opts pq := exec_reached hl hex
    rw [reached_next hr, hi, hm, hH, hL]
    unfold Low
    rw [pickLevel_four_iff]
    simp only [Nat.cast_zero, zero_mul]
    constructor
    · rintro ⟨_, _, h3, _⟩
      have : (2 * backlog pq High : ℚ) < backlog pq 4 := by linarith
      exact_mod_cast this
    · intro h3
      have h3q : (2 * backlog pq High : ℚ) < backlog pq 4 := by exact_mod_cast h3
      have h0 : (0 : ℚ) ≤ backlog pq High := Nat.cast_nonneg _
      exact ⟨by linarith, by linarith, by linarith, by linarith⟩

/-- C8, second part, on the state after one High push and three Low pushes with
the client's multipliers: Low is the cached level, as `3 > 2 * 1`. -/
theorem low_backlog_is_eventually_served_witness :
    (Push (Push (Push (Push (newQueue clientOptions) ⟨1, High⟩) ⟨2, Low⟩) ⟨3, Low⟩)
        ⟨4, Low⟩).nextPriority = Low :=
  (low_backlog_is_eventually_served.2 clientOptions rfl rfl
    [.push ⟨1, High⟩, .push ⟨2, Low⟩, .push ⟨3, Low⟩, .push ⟨4, Low⟩] _ []
    (by simp [atLevels, pushedOf, scanOrder, Immediate, High, Medium, Low]) rfl
    (by with_unfolding_all rfl) (by with_unfolding_all rfl)).2 (by with_unfolding_all decide)

/-! ## The client -/

theorem pickLevel_nonpos {a b c d : ℚ} (ha : a ≤ 0) (hb : b ≤ 0) (hc : c ≤ 0) (hd : d ≤ 0) :
    pickLevel a b c d = 0 := by
  unfold pickLevel
  rw [if_neg (fun h => absurd h.1 (not_lt.2 ha)), if_neg (fun h => absurd h.1 (not_lt.2 hb)),
    if_neg (fun h => absurd h.1 (not_lt.2 hc)), if_neg (fun h => absurd h.1 (not_lt.2 hd))]

/-- The state after a single push on a new queue, at a priority other than `0`
whose multiplier is not positive. -/
theorem single_push_unservable (opts : PriorityQueueOptions) (t : Nat) (p : Priority)
    (hp : p ≠ 0) (hw : configMap opts p ≤ 0) :
    Len (Push (newQueue opts) ⟨t, p⟩) = 1 ∧
      Empty (Push (newQueue opts) ⟨t, p⟩) = false ∧
      (Push (newQueue opts) ⟨t, p⟩).nodeHeap p = [⟨t, p⟩] ∧
      (∀ q, (Push (newQueue opts) ⟨t, p⟩).heapWeight q ≤ 0) ∧
      (Push (newQueue opts) ⟨t, p⟩).nextPriority = 0 ∧
      (Push (newQueue opts) ⟨t, p⟩).nodeHeap (Push (newQueue opts) ⟨t, p⟩).nextPriority = [] ∧
      Pop (Push (newQueue opts) ⟨t, p⟩) = .indexPanic := by
  have hheap : (Push (newQueue opts) ⟨t, p⟩).nodeHeap p = [⟨t, p⟩] := by
    rw [Push_nodeHeap]
    simp [newQueue, NewPriorityQueue]
  have hwt : ∀ q, (Push (newQueue opts) ⟨t, p⟩).heapWeight q ≤ 0 := by
    intro q
    rw [Push_heapWeight]
    by_cases e : q = p
    · subst e
      simpa [newQueue, NewPriorityQueue] using hw
    · rw [Function.update_noteq e]
      simp [newQueue, NewPriorityQueue]
  have hnext : (Push (newQueue opts) ⟨t, p⟩).nextPriority = 0 := by
    have : (Push (newQueue opts) ⟨t, p⟩).nextPriority =
        scanNext (Push (newQueue opts) ⟨t, p⟩).heapWeight := rfl
    rw [this, scanNext_pick]
    exact pickLevel_nonpos (hwt 1) (hwt 2) (hwt 3) (hwt 4)
  have hzero : (Push (newQueue opts) ⟨t, p⟩).nodeHeap 0 = [] := by
    rw [Push_nodeHeap]
    simp only [QItem.priority]
    rw [Function.update_noteq (Ne.symm hp)]
    rfl
  have hlen : (Push (newQueue opts) ⟨t, p⟩).length = 1 := rfl
  refine ⟨hlen, ?_, hheap, hwt, hnext, by rw [hnext]; exact hzero, ?_⟩
  · simp [Empty, Len, hlen]
  · unfold Pop
    rw [if_neg (by rw [hlen]; decide), hnext, hzero]

/-- C14 as stated fails in its last sentence for priority `0`, which is outside
`1..4`: the entry is stored under key `0`, the cached next level `0` points at
it, and `Pop` returns it. -/
theorem priority_zero_entry_is_popped :
    (0 : Priority) ∉ scanOrder ∧
      Len (Push (newQueue clientOptions) ⟨7, 0⟩) = 1 ∧
      (Push (newQueue clientOptions) ⟨7, 0⟩).nextPriority = 0 ∧
      ∃ pq', Pop (Push (newQueue clientOptions) ⟨7, 0⟩) = .ok ⟨7, 0⟩ pq' ∧ Len pq' = 0 :=
  ⟨by decide, by with_unfolding_all rfl, by with_unfolding_all rfl, _,
    by with_unfolding_all rfl, by with_unfolding_all rfl⟩

/-- C14, amended. A non-zero count does not guarantee a servable level. The
constructor accepts every multiplier; after a single push on a new queue,
either at one of the four levels whose multiplier is `≤ 0` (for example Low
with multiplier `0`) or at a priority below `0` or above `4`, `Len` is `1` and
`Empty` is false, the entry is queued, every level weight is `≤ 0`, the cached
next level is `0`, and `Pop` passes its guard, indexes the empty sequence of
key `0` and panics instead of returning the entry. -/
theorem count_without_servable_level (opts : PriorityQueueOptions) (t : Nat) (p : Priority)
    (hp : (p ∈ scanOrder ∧ configMap opts p ≤ 0) ∨ p < 0 ∨ 4 < p) :
    Len (Push (newQueue opts) ⟨t, p⟩) = 1 ∧
      Empty (Push (newQueue opts) ⟨t, p⟩) = false ∧
      (Push (newQueue opts) ⟨t, p⟩).nodeHeap p = [⟨t, p⟩] ∧
      (∀ q ∈ scanOrder, levelWeight (Push (newQueue opts) ⟨t, p⟩) q ≤ 0) ∧
      (∀ q ∈ scanOrder, (Push (newQueue opts) ⟨t, p⟩).heapWeight q ≤ 0) ∧
      (Push (newQueue opts) ⟨t, p⟩).nextPriority = 0 ∧
      (Push (newQueue opts) ⟨t, p⟩).nodeHeap (Push (newQueue opts) ⟨t, p⟩).nextPriority = [] ∧
      Pop (Push (newQueue opts) ⟨t, p⟩) = .indexPanic := by
  have hp0 : p ≠ 0 := by
    rcases hp with ⟨hm, _⟩ | h | h
    · rcases (mem_scanOrder p).1 hm with e | e | e | e <;> rw [e] <;> decide
    · exact ne_of_lt h
    · intro e
      rw [e] at h
      exact absurd h (by decide)
  have hw : configMap opts p ≤ 0 := by
    rcases hp with ⟨_, hw⟩ | h | h
    · exact hw
    · have h1 : p ≠ 1 := fun e => absurd (e ▸ h : (1 : Priority) < 0) (by decide)
      have h2 : p ≠ 2 := fun e => absurd (e ▸ h : (2 : Priority) < 0) (by decide)
      have h3 : p ≠ 3 := fun e => absurd (e ▸ h : (3 : Priority) < 0) (by decide)
      have h4 : p ≠ 4 := fun e => absurd (e ▸ h : (4 : Priority) < 0) (by decide)
      simp [configMap, Immediate, High, Medium, Low, h1, h2, h3, h4]
    · have h1 : p ≠ 1 := fun e => absurd (e ▸ h : (4 : Priority) < 1) (by decide)
      have h2 : p ≠ 2 := fun e => absurd (e ▸ h : (4 : Priority) < 2) (by decide)
      have h3 : p ≠ 3 := fun e => absurd (e ▸ h : (4 : Priority) < 3) (by decide)
      have h4 : p ≠ 4 := fun e => absurd (e ▸ h : (4 : Priority) < 4) (by decide)
      simp [configMap, Immediate, High, Medium, Low, h1, h2, h3, h4]
  obtain ⟨h1, h2, h3, h4, h5, h6, h7⟩ := single_push_unservable opts t p hp0 hw
  have hc : Coherent (Push (newQueue opts) ⟨t, p⟩) := coherent_push _ (coherent_new _)
  refine ⟨h1, h2, h3, ?_, fun q _ => h4 q, h5, h6, h7⟩
  intro q _
  rw [← hc.weights q]
  exact h4 q

/-- C14 amended, on a queue whose Low multiplier is `0` after one Low push, and
on a queue with the client's multipliers after one push at priority `7`. -/
theorem count_without_servable_level_witness :
    Pop (Push (newQueue lowZeroOptions) ⟨1, Low⟩) = .indexPanic ∧
      Pop (Push (newQueue clientOptions) ⟨1, 7⟩) = .indexPanic :=
  ⟨(count_without_servable_level lowZeroOptions 1 Low
      (Or.inl ⟨by simp [scanOrder],
        by simp [configMap, lowZeroOptions, Immediate, High, Medium, Low]⟩)).2.2.2.2.2.2.2,
    (count_without_servable_level clientOptions 1 7 (Or.inr (Or.inr (by decide)))).2.2.2.2.2.2.2⟩

/-- What `enqueue` pushes and allocates. -/
theorem enqueue_enqueuedWith (w : World) (req : Request) (priority : Priority) :
    enqueuedWith w (enqueue w req priority) req.Method req.URL priority := by
  refine ⟨?_, ?_, ?_⟩
  · show (Push w.h.queue (NewQItem w.fresh priority)).nodeHeap priority = _
    rw [Push_nodeHeap]
    simp [NewQItem]
  · simp [enqueue]
  · simp [enqueue]

/-- C11, on the code. For every well-formed url, `Get`, `Head`, `Post` and `Put`
push at the given priority an entry whose request has the method `GET`,
`HEAD`, `POST` and `PUT`; `Delete` pushes at the given priority an entry whose
request has the method `PUT`, which is not `DELETE`. -/
theorem delete_builds_put_request (wellFormed : String → Bool) (w : World)
    (url contentType : String) (body : Option Nat) (priority : Priority)
    (hwf : wellFormed url = true) :
    (∃ w', Get wellFormed w url priority = some w' ∧ enqueuedWith w w' "GET" url priority) ∧
      (∃ w', Head wellFormed w url priority = some w' ∧
        enqueuedWith w w' "HEAD" url priority) ∧
      (∃ w', Post wellFormed w url contentType body priority = some w' ∧
        enqueuedWith w w' "POST" url priority) ∧
      (∃ w', Put wellFormed w url contentType body priority = some w' ∧
        enqueuedWith w w' "PUT" url priority) ∧
      (∃ w', Delete wellFormed w url contentType priority = some w' ∧
        enqueuedWith w w' "PUT" url priority ∧
        (w'.heap w.fresh).Request.Method ≠ "DELETE") := by
  refine ⟨?_, ?_, ?_, ?_, ?_⟩
  · refine ⟨_, ?_, enqueue_enqueuedWith w ⟨"GET", url, none, none⟩ priority⟩
    simp [Get, NewRequest, hwf]
  · refine ⟨_, ?_, enqueue_enqueuedWith w ⟨"HEAD", url, none, none⟩ priority⟩
    simp [Head, NewRequest, hwf]
  · refine ⟨_, ?_, enqueue_enqueuedWith w ⟨"POST", url, body, some contentType⟩ priority⟩
    simp [Post, NewRequest, hwf]
  · refine ⟨_, ?_, enqueue_enqueuedWith w ⟨"PUT", url, body, none⟩ priority⟩
    simp [Put, NewRequest, hwf]
  · have he := enqueue_enqueuedWith w ⟨"PUT", url, none, none⟩ priority
    refine ⟨_, ?_, he, ?_⟩
    · simp [Delete, NewRequest, hwf]
    · intro hne
      have hm : ((enqueue w ⟨"PUT", url, none, none⟩ priority).heap w.fresh).Request.Method =
          "PUT" := he.2.1
      rw [hm] at hne
      exact absurd hne (by decide)

/-- C11 on the code, at the url `http://host/posts/1` and priority Low on a
client built with the default options. -/
theorem delete_builds_put_request_witness :
    ∃ h, NewHttpClient [] = some h ∧
      ∃ w', Delete (fun _ => true) (newWorld h) "http://host/posts/1" "application/json" Low =
          some w' ∧
        enqueuedWith (newWorld h) w' "PUT" "http://host/posts/1" Low ∧
        (w'.heap (newWorld h).fresh).Request.Method ≠ "DELETE" := by
  refine ⟨_, rfl, ?_⟩
  exact (delete_builds_put_request (fun _ => true) (newWorld _) "http://host/posts/1"
    "application/json" none Low rfl).2.2.2.2

/-- One iteration of the loop on a state whose queue `Pop` serves, whose work
channel is empty with room for one value and whose quit channel is empty. -/
theorem loopIteration_serves (transport : Request → ApiTaskResult) (workFirst : Bool)
    (w : World) (node : QItem) (pq' : priorityQueue)
    (hpop : Pop w.h.queue = .ok node pq') (ht : w.h.tasks = []) (hcap : 0 < w.h.tasksCap)
    (hq : w.h.quitChan = []) :
    loopIteration transport workFirst w =
      .next { w with
        h := { w.h with queue := pq', tasks := [] }
        executed := w.executed ++ [(w.heap node.task).Request]
        sent := Function.update w.sent (w.heap node.task).Result
          (w.sent (w.heap node.task).Result ++ [transport (w.heap node.task).Request]) } := by
  have h0 : w.h.queue.length ≠ 0 := (Pop_ok_fields hpop).1
  have hE : Empty w.h.queue = false := by simp [Empty, Len, h0]
  have hfeed : feedWork w =
      .next { w with h := { w.h with queue := pq', tasks := [node.task] } } := by
    unfold feedWork
    rw [hE, hpop]
    simp [ht, hcap, QItem.Task]
  unfold loopIteration
  rw [hfeed]
  simp [selectStep, runWork, hq]

/-- C12 as stated fails. On a client built with the Low multiplier `0`, after
one `Get` at Low the queue is not empty, the work channel is empty and no
quit signal is pending, yet the iteration panics in `Pop` and sends no
result. On a client built with a work channel of size `0`, in the same
situation the iteration blocks on the send to the work channel. -/
theorem iteration_without_result_counterexample :
    (∃ h w, NewHttpClient [fun o => { o with WeightLow := 0 }] = some h ∧
        Get (fun _ => true) (newWorld h) "http://host/posts/1" Low = some w ∧
        Empty w.h.queue = false ∧ w.h.tasks = [] ∧ w.h.quitChan = [] ∧
        loopIteration (fun _ => ⟨none, none⟩) true w = .panicked) ∧
      (∃ h w, NewHttpClient [fun o => { o with WorkQueueMaxSize := 0 }] = some h ∧
        Get (fun _ => true) (newWorld h) "http://host/posts/1" Low = some w ∧
        Empty w.h.queue = false ∧ w.h.tasks = [] ∧ w.h.quitChan = [] ∧
        loopIteration (fun _ => ⟨none, none⟩) true w = .blocked) :=
  ⟨⟨_, _, by with_unfolding_all rfl, by with_unfolding_all rfl, by with_unfolding_all rfl,
      by with_unfolding_all rfl, by with_unfolding_all rfl, by with_unfolding_all rfl⟩,
    ⟨_, _, by with_unfolding_all rfl, by with_unfolding_all rfl, by with_unfolding_all rfl,
      by with_unfolding_all rfl, by with_unfolding_all rfl, by with_unfolding_all rfl⟩⟩

/-- C12, amended. For every state of the client in which `Pop` returns an entry
of the queue (so the queue is not empty), the work channel is empty and has
room for at least one value, and no quit signal is pending, one iteration of
the loop goes on to the next iteration with the queue as `Pop` left it; the
transport has been invoked once more, on the request of the popped entry's
task; the value it returned has been sent, once, on that task's result
channel; every other result channel is as before; and the work channel is
empty again. -/
theorem iteration_routes_one_result (transport : Request → ApiTaskResult) (workFirst : Bool)
    (w : World) (node : QItem) (pq' : priorityQueue)
    (hpop : Pop w.h.queue = .ok node pq') (ht : w.h.tasks = []) (hcap : 0 < w.h.tasksCap)
    (hq : w.h.quitChan = []) :
    ∃ w', loopIteration transport workFirst w = .next w' ∧
      w'.h.queue = pq' ∧
      w'.executed = w.executed ++ [(w.heap node.task).Request] ∧
      w'.sent (w.heap node.task).Result =
        w.sent (w.heap node.task).Result ++ [transport (w.heap node.task).Request] ∧
      (∀ c, c ≠ (w.heap node.task).Result → w'.sent c = w.sent c) ∧
      w'.h.tasks = [] ∧ w'.h.quitChan = [] ∧ w'.heap = w.heap := by
  refine ⟨_, loopIteration_serves transport workFirst w node pq' hpop ht hcap hq, rfl, rfl,
    ?_, ?_, rfl, hq, rfl⟩
  · simp
  · intro c hc
    simp [Function.update_noteq hc]

/-- C12 amended, on the client built with the default options after one `Get`
at Low, with a transport that returns response `200`. -/
theorem iteration_routes_one_result_witness :
    NewHttpClient [] = some defaultClient ∧
      Get (fun _ => true) (newWorld defaultClient) "http://host/posts/1" Low =
        some (enqueue (newWorld defaultClient) ⟨"GET", "http://host/posts/1", none, none⟩ Low) ∧
      ∃ w', loopIteration (fun _ => ⟨some 200, none⟩) true
          (enqueue (newWorld defaultClient) ⟨"GET", "http://host/posts/1", none, none⟩ Low) =
            .next w' ∧
        w'.executed = [⟨"GET", "http://host/posts/1", none, none⟩] ∧
        w'.sent 0 = [⟨some 200, none⟩] ∧
        w'.h.tasks = [] := by
  refine ⟨rfl, rfl, ?_⟩
  obtain ⟨w', h1, _, h3, h4, _, h6, _⟩ :=
    iteration_routes_one_result (fun _ => ⟨some 200, none⟩) true
      (enqueue (newWorld defaultClient) ⟨"GET", "http://host/posts/1", none, none⟩ Low)
      ⟨0, Low⟩ _ (by with_unfolding_all rfl) rfl (by decide) rfl
  exact ⟨w', h1, h3, h4, h6⟩

/-! ## The queue with `float64` weights: scan and invariants -/

theorem roundF64_zero : roundF64 0 = .fin 0 := by
  simp [roundF64]

theorem squash_strictMono {a b : ℚ} (h : a < b) : a / (1 + |a|) < b / (1 + |b|) := by
  have ha : 0 < 1 + |a| := by positivity
  have hb : 0 < 1 + |b| := by positivity
  rw [div_lt_div_iff₀ ha hb]
  rcases le_or_lt 0 a with h0 | h0
  · have hb0 : 0 ≤ b := le_trans h0 h.le
    rw [abs_of_nonneg h0, abs_of_nonneg hb0]
    nlinarith
  · rcases le_or_lt 0 b with h1 | h1
    · rw [abs_of_neg h0, abs_of_nonneg h1]
      nlinarith [mul_nonneg (neg_nonneg.2 h0.le) h1]
    · rw [abs_of_neg h0, abs_of_neg h1]
      nlinarith

theorem squash_lt_iff (a b : ℚ) : a / (1 + |a|) < b / (1 + |b|) ↔ a < b := by
  constructor
  · intro h
    by_contra hn
    rcases eq_or_lt_of_le (not_lt.1 hn) with e | e
    · rw [e] at h
      exact lt_irrefl _ h
    · exact lt_asymm h (squash_strictMono e)
  · exact squash_strictMono

theorem squash_lt_one (a : ℚ) : a / (1 + |a|) < 1 := by
  have ha : 0 < 1 + |a| := by positivity
  rw [div_lt_one ha]
  linarith [le_abs_self a]

theorem neg_one_lt_squash (a : ℚ) : -1 < a / (1 + |a|) := by
  have ha : 0 < 1 + |a| := by positivity
  rw [lt_div_iff₀ ha]
  linarith [neg_abs_le a]

/-- Go's `<` on `float64` is the order of the ranks, away from NaN. -/
theorem F64.lt_iff_rank (x y : F64) :
    F64.lt x y = true ↔ x ≠ .nan ∧ y ≠ .nan ∧ x.rank < y.rank := by
  cases x with
  | fin a =>
    cases y with
    | fin b => simp [F64.lt, F64.rank, squash_lt_iff]
    | inf neg =>
      cases neg
      · simp [F64.lt, F64.rank, squash_lt_one]
      · simp [F64.lt, F64.rank, (neg_one_lt_squash a).le]
    | nan => simp [F64.lt]
  | inf neg =>
    cases y with
    | fin b =>
      cases neg
      · simp [F64.lt, F64.rank, (squash_lt_one b).le]
      · simp [F64.lt, F64.rank, neg_one_lt_squash]
    | inf neg2 => cases neg <;> cases neg2 <;> simp [F64.lt, F64.rank]
    | nan => simp [F64.lt]
  | nan => cases y <;> simp [F64.lt]

namespace Rounded

/-- One step of the `float64` scan is one step of the rational scan on the
ranks, as long as the running maximum is a number that is not negative. -/
theorem setNextStep_rank (w : Priority → F64) (acc : Priority × F64) (p : Priority)
    (hn : acc.2 ≠ .nan) (h0 : 0 ≤ acc.2.rank) :
    (setNextStep w acc p).2 ≠ .nan ∧ 0 ≤ (setNextStep w acc p).2.rank ∧
      ((setNextStep w acc p).1, (setNextStep w acc p).2.rank) =
        RateLimitedHttp.setNextStep (fun q => (w q).rank) (acc.1, acc.2.rank) p := by
  unfold setNextStep RateLimitedHttp.setNextStep
  by_cases h : F64.lt acc.2 (w p) = true
  · obtain ⟨_, hw, hlt⟩ := (F64.lt_iff_rank _ _).1 h
    rw [if_pos h, if_pos (show (w p).rank > acc.2.rank from hlt)]
    exact ⟨hw, le_trans h0 hlt.le, rfl⟩
  · have hle : ¬((w p).rank > acc.2.rank) := by
      intro hgt
      by_cases hw : w p = .nan
      · rw [hw] at hgt
        exact absurd hgt (not_lt.2 h0)
      · exact h ((F64.lt_iff_rank _ _).2 ⟨hn, hw, hgt⟩)
    rw [if_neg h, if_neg hle]
    exact ⟨hn, h0, rfl⟩

theorem foldl_rank (w : Priority → F64) : ∀ (l : List Priority) (acc : Priority × F64),
    acc.2 ≠ .nan → 0 ≤ acc.2.rank →
    (l.foldl (setNextStep w) acc).1 =
      (l.foldl (RateLimitedHttp.setNextStep (fun q => (w q).rank)) (acc.1, acc.2.rank)).1 := by
  intro l
  induction l with
  | nil => intro acc _ _; rfl
  | cons p l ih =>
    intro acc hn h0
    obtain ⟨hn', h0', he⟩ := setNextStep_rank w acc p hn h0
    rw [List.foldl_cons, List.foldl_cons, ih _ hn' h0', he]

/-- The `float64` scan of `setNext` is the rational scan on the ranks. -/
theorem scanNext_rank (w : Priority → F64) :
    scanNext w = RateLimitedHttp.scanNext (fun q => (w q).rank) := by
  unfold scanNext RateLimitedHttp.scanNext
  rw [foldl_rank w scanOrder (0, .fin 0) (by simp) (by simp [F64.rank])]
  simp [F64.rank]

end Rounded

theorem le_maxWeight (v : Priority → ℚ) (q : Priority) (hq : q ∈ scanOrder) :
    v q ≤ maxWeight v := by
  unfold maxWeight Immediate High Medium Low
  rcases (mem_scanOrder q).1 hq with e | e | e | e <;> subst e <;> simp [le_max_iff]

theorem maxWeight_attained (v : Priority → ℚ) : ∃ q ∈ scanOrder, maxWeight v = v q := by
  unfold maxWeight Immediate High Medium Low
  rcases max_choice (max (v 1) (v 2)) (max (v 3) (v 4)) with h | h <;> rw [h]
  · rcases max_choice (v 1) (v 2) with h | h <;> rw [h]
    · exact ⟨1, (mem_scanOrder 1).2 (Or.inl rfl), rfl⟩
    · exact ⟨2, (mem_scanOrder 2).2 (Or.inr (Or.inl rfl)), rfl⟩
  · rcases max_choice (v 3) (v 4) with h | h <;> rw [h]
    · exact ⟨3, (mem_scanOrder 3).2 (Or.inr (Or.inr (Or.inl rfl))), rfl⟩
    · exact ⟨4, (mem_scanOrder 4).2 (Or.inr (Or.inr (Or.inr rfl))), rfl⟩

theorem find_congr_mem {α : Type} (p q : α → Bool) : ∀ (l : List α),
    (∀ x ∈ l, p x = q x) → l.find? p = l.find? q := by
  intro l
  induction l with
  | nil => intro _; rfl
  | cons a l ih =>
    intro h
    rw [List.find?_cons, List.find?_cons, h a (List.mem_cons_self _ _),
      ih (fun x hx => h x (List.mem_cons_of_mem _ hx))]

namespace Rounded

/-- A level is positive and maximal among the `float64` weights exactly when
its rank is the positive maximum of the ranks. -/
theorem candidate_iff (w : Priority → F64) (p : Priority) (hpm : p ∈ scanOrder) :
    (F64.lt (.fin 0) (w p) && scanOrder.all (fun q => !F64.lt (w p) (w q))) = true ↔
      0 < maxWeight (fun q => (w q).rank) ∧
        (w p).rank = maxWeight (fun q => (w q).rank) := by
  rw [Bool.and_eq_true, List.all_eq_true]
  constructor
  · rintro ⟨hpos, hmax⟩
    obtain ⟨_, hw, hlt⟩ := (F64.lt_iff_rank _ _).1 hpos
    have h0 : 0 < (w p).rank := by simpa [F64.rank] using hlt
    have hle : ∀ q ∈ scanOrder, (w q).rank ≤ (w p).rank := by
      intro q hq
      have hq' := hmax q hq
      by_cases hn : w q = .nan
      · rw [hn]
        exact h0.le
      · by_contra hgt
        have : F64.lt (w p) (w q) = true :=
          (F64.lt_iff_rank _ _).2 ⟨hw, hn, not_le.1 hgt⟩
        rw [this] at hq'
        exact absurd hq' (by decide)
    obtain ⟨q0, hq0, hM⟩ := maxWeight_attained (fun q => (w q).rank)
    have hp : (w p).rank = maxWeight (fun q => (w q).rank) :=
      le_antisymm (le_maxWeight (fun q => (w q).rank) p hpm) (hM ▸ hle q0 hq0)
    exact ⟨hp ▸ h0, hp⟩
  · rintro ⟨hM, hp⟩
    have h0 : 0 < (w p).rank := hp ▸ hM
    have hw : w p ≠ .nan := by
      intro e
      rw [e] at h0
      exact lt_irrefl _ h0
    refine ⟨(F64.lt_iff_rank _ _).2 ⟨by simp, hw, by simpa [F64.rank] using h0⟩, ?_⟩
    intro q hq
    by_contra hlt
    have hlt' : F64.lt (w p) (w q) = true := by simpa using hlt
    obtain ⟨_, _, hr⟩ := (F64.lt_iff_rank _ _).1 hlt'
    have := le_maxWeight (fun q => (w q).rank) q hq
    simp only at this
    linarith

/-- The `float64` selection rule is the rational selection rule on the ranks. -/
theorem selectByRule_rank (w : Priority → F64) :
    selectByRule w = RateLimitedHttp.selectByRule (fun q => (w q).rank) := by
  unfold selectByRule RateLimitedHttp.selectByRule
  by_cases hM : 0 < maxWeight (fun q => (w q).rank)
  · rw [if_pos hM]
    congr 1
    apply find_congr_mem
    intro p hp
    rw [Bool.eq_iff_iff, candidate_iff w p hp]
    simp [hM]
  · rw [if_neg hM]
    have : scanOrder.find? (fun p =>
        F64.lt (.fin 0) (w p) && scanOrder.all (fun q => !F64.lt (w p) (w q))) = none := by
      rw [List.find?_eq_none]
      intro p hp h
      exact hM ((candidate_iff w p hp).1 h).1
    rw [this]
    rfl

/-- The `float64` scan of `setNext` computes the selection rule. -/
theorem scanNext_eq_selectByRule_f64 (w : Priority → F64) : scanNext w = selectByRule w := by
  rw [scanNext_rank, selectByRule_rank, RateLimitedHttp.scanNext_eq_selectByRule]

theorem Push_nodeHeap_f64 (pq : priorityQueue) (node : QItem) :
    (Push pq node).nodeHeap =
      Function.update pq.nodeHeap node.priority (pq.nodeHeap node.priority ++ [node]) := rfl

theorem Push_heapWeight_f64 (pq : priorityQueue) (node : QItem) :
    (Push pq node).heapWeight =
      Function.update pq.heapWeight node.priority
        (F64.mul (F64.ofNat (pq.nodeHeap node.priority ++ [node]).length)
          (pq.heapWeightConfig node.priority)) := by
  simp [Push, setNext, updateHeapWeight, QItem.Priority]

/-- The state that a successful `Pop` leaves, field by field. -/
theorem Pop_ok_fields_f64 {pq pq' : priorityQueue} {node : QItem}
    (h : Pop pq = .ok node pq') :
    pq.length ≠ 0 ∧ ∃ rest, pq.nodeHeap pq.nextPriority = node :: rest ∧
      pq'.nodeHeap = Function.update pq.nodeHeap pq.nextPriority rest ∧
      pq'.heapWeight = Function.update pq.heapWeight node.priority
        (F64.mul (F64.ofNat (pq'.nodeHeap node.priority).length)
          (pq.heapWeightConfig node.priority)) ∧
      pq'.heapWeightConfig = pq.heapWeightConfig ∧
      pq'.length = pq.length - 1 ∧
      pq'.nextPriority = scanNext pq'.heapWeight := by
  unfold Pop at h
  split_ifs at h with h0
  refine ⟨h0, ?_⟩
  cases hh : pq.nodeHeap pq.nextPriority with
  | nil => rw [hh] at h; cases h
  | cons x rest =>
    rw [hh] at h
    simp only [PopOutcome.ok.injEq] at h
    obtain ⟨hx, hpq⟩ := h
    subst hx
    subst hpq
    exact ⟨rest, rfl, rfl, rfl, rfl, rfl, rfl⟩

theorem Pop_emptyErr_f64 {pq pq' : priorityQueue} (h : Pop pq = .emptyErr pq') : pq' = pq := by
  unfold Pop at h
  split_ifs at h with h0
  · simp only [PopOutcome.emptyErr.injEq] at h
    exact h.symm
  · cases hh : pq.nodeHeap pq.nextPriority <;> rw [hh] at h <;> cases h

theorem coherent_new_f64 (opts : PriorityQueueOptions) : Coherent opts (newQueue opts) := by
  refine ⟨?_, rfl, ?_, ?_⟩
  · intro p x hx
    simp [newQueue, NewPriorityQueue] at hx
  · intro p
    exact Or.inr ⟨rfl, rfl⟩
  · show (0 : Priority) = scanNext (fun _ => F64.fin 0)
    rw [scanNext_rank]
    simpa [F64.rank] using scanNext_zero.symm

theorem coherent_push_f64 {opts : PriorityQueueOptions} {pq : priorityQueue} (node : QItem)
    (h : Coherent opts pq) : Coherent opts (Push pq node) := by
  refine ⟨?_, h.config, ?_, rfl⟩
  · intro p x hx
    rw [Push_nodeHeap_f64] at hx
    by_cases hp : p = node.priority
    · subst hp
      rw [Function.update_same, List.mem_append] at hx
      rcases hx with hx | hx
      · exact h.keyed _ x hx
      · rw [List.mem_singleton] at hx
        rw [hx]
    · rw [Function.update_noteq hp] at hx
      exact h.keyed p x hx
  · intro p
    rw [Push_heapWeight_f64]
    unfold levelWeight
    rw [Push_nodeHeap_f64]
    by_cases hp : p = node.priority
    · subst hp
      left
      rw [Function.update_same, Function.update_same, h.config]
    · rw [Function.update_noteq hp, Function.update_noteq hp]
      exact h.weights p

theorem pop_priority_f64 {opts : PriorityQueueOptions} {pq pq' : priorityQueue} {node : QItem}
    (h : Coherent opts pq) (hpop : Pop pq = .ok node pq') : node.priority = pq.nextPriority := by
  obtain ⟨_, rest, hh, _⟩ := Pop_ok_fields_f64 hpop
  exact h.keyed _ node (by rw [hh]; exact List.mem_cons_self _ _)

theorem coherent_pop_f64 {opts : PriorityQueueOptions} {pq pq' : priorityQueue} {node : QItem}
    (h : Coherent opts pq) (hpop : Pop pq = .ok node pq') : Coherent opts pq' := by
  have hprio := pop_priority_f64 h hpop
  obtain ⟨_, rest, hh, hheap, hw, hcfg, _, hnext⟩ := Pop_ok_fields_f64 hpop
  refine ⟨?_, hcfg.trans h.config, ?_, hnext⟩
  · intro p x hx
    rw [hheap] at hx
    by_cases hp : p = pq.nextPriority
    · subst hp
      rw [Function.update_same] at hx
      exact h.keyed _ x (by rw [hh]; exact List.mem_cons_of_mem _ hx)
    · rw [Function.update_noteq hp] at hx
      exact h.keyed p x hx
  · intro p
    rw [hw]
    unfold levelWeight
    by_cases hp : p = node.priority
    · subst hp
      left
      rw [Function.update_same, h.config]
    · rw [Function.update_noteq hp, hheap, Function.update_noteq (hprio ▸ hp)]
      exact h.weights p

/-- Every run from a coherent state ends in a coherent state. -/
theorem exec_coherent_f64 {opts : PriorityQueueOptions} : ∀ (ops : List Op)
    (pq : priorityQueue) (out : List QItem) (pq' : priorityQueue) (out' : List QItem),
    Coherent opts pq → exec pq out ops = some (pq', out') → Coherent opts pq' := by
  intro ops
  induction ops with
  | nil =>
    intro pq out pq' out' hI h
    simp only [exec, Option.some.injEq, Prod.mk.injEq] at h
    exact h.1 ▸ hI
  | cons op ops ih =>
    intro pq out pq' out' hI h
    cases op with
    | push node =>
      simp only [exec] at h
      exact ih _ _ _ _ (coherent_push_f64 node hI) h
    | pop =>
      simp only [exec] at h
      cases hp : Pop pq with
      | ok node pq1 =>
        rw [hp] at h
        exact ih _ _ _ _ (coherent_pop_f64 hI hp) h
      | emptyErr pq1 =>
        rw [hp] at h
        have e := Pop_emptyErr_f64 hp
        subst e
        exact ih _ _ _ _ hI h
      | indexPanic =>
        rw [hp] at h
        cases h

/-- The product of the length of an empty slice and a multiplier has the rank
of `0`, whatever the multiplier. -/
theorem rank_mul_zero (c : F64) : (F64.mul (F64.ofNat 0) c).rank = 0 := by
  have h0 : F64.ofNat 0 = .fin 0 := by simp [F64.ofNat, roundF64_zero]
  rw [h0]
  cases c with
  | fin b => simp [F64.mul, roundF64_zero, F64.rank]
  | inf neg => simp [F64.mul, F64.rank]
  | nan => simp [F64.mul, F64.rank]

/-- In a coherent state the cached weight of a level has the rank of the
weight of the actual backlog. -/
theorem coherent_rank {opts : PriorityQueueOptions} {pq : priorityQueue} (h : Coherent opts pq)
    (p : Priority) : (pq.heapWeight p).rank = (levelWeight opts pq p).rank := by
  rcases h.weights p with e | ⟨he, hz⟩
  · rw [e]
  · rw [hz]
    unfold levelWeight
    rw [he]
    simpa [F64.rank] using (rank_mul_zero (configMap opts p)).symm

/-- With a finite multiplier the product of the length of an empty slice and
the multiplier is `0`. -/
theorem mul_zero_fin (b : ℚ) : F64.mul (F64.ofNat 0) (.fin b) = .fin 0 := by
  simp [F64.ofNat, roundF64_zero, F64.mul]

end Rounded

/-- C1 as stated fails on the code, which multiplies in `float64`. With the
client's multipliers, after 2 Medium and 3 Low pushes the code caches Low
(`3 * 0.4` rounds to `1.2000000000000002`, above `2 * 0.6 = 1.2`), where the
rule on the exact products `2 * 3/5` and `3 * 2/5`, which tie, selects Medium.
After 10 Medium and 15 Low pushes the code caches Medium (both products round
to `6`), where the rule on the exact products of the counts and the exact
values of the `float64` multipliers selects Low. -/
theorem exact_product_selection_counterexample :
    (∃ pq, Rounded.exec (Rounded.newQueue Rounded.clientOptions) [] (Rounded.mediumThenLow 2 3) =
        some (pq, []) ∧
      pq.nextPriority = Low ∧
      selectByRule (fun p => ((pq.nodeHeap p).length : ℚ) * configMap clientOptions p) =
        Medium) ∧
    (∃ pq, Rounded.exec (Rounded.newQueue Rounded.clientOptions) []
        (Rounded.mediumThenLow 10 15) = some (pq, []) ∧
      pq.nextPriority = Medium ∧
      selectByRule (fun p => ((pq.nodeHeap p).length : ℚ) *
        (Rounded.configMap Rounded.clientOptions p).toRat) = Low) := by
  refine ⟨⟨_, by with_unfolding_all rfl, by with_unfolding_all rfl, ?_⟩,
    ⟨_, by with_unfolding_all rfl, by with_unfolding_all rfl, ?_⟩⟩
  · rw [select_pickLevel 0 0 (2 * (3 / 5)) (3 * (2 / 5)) _ (by with_unfolding_all rfl)
      (by with_unfolding_all rfl) (by with_unfolding_all rfl) (by with_unfolding_all rfl)]
    norm_num [pickLevel, Medium]
  · rw [select_pickLevel 0 0 (10 * (5404319552844595 / 9007199254740992))
      (15 * (3602879701896397 / 9007199254740992)) _ (by with_unfolding_all rfl)
      (by with_unfolding_all rfl) (by with_unfolding_all rfl) (by with_unfolding_all rfl)]
    norm_num [pickLevel, Low]

/-- C1, amended. In every state reached from a new queue, whatever the four
multipliers, by `Push` calls and `Pop` calls, the cached next level is the
selection rule applied to the weights of the actual backlog as the code
computes them, `float64(count) * multiplier` (the exact product rounded to the
nearest `float64`): the lowest-ordinal level whose weight is strictly positive
and not exceeded by another weight, and `0` when no weight is strictly
positive. A level whose weight equals that of a lower-ordinal level is never
the cached one. -/
theorem next_is_selection_of_float_weights (opts : Rounded.PriorityQueueOptions)
    (ops : List Op) (pq : Rounded.priorityQueue) (out : List QItem)
    (h : Rounded.exec (Rounded.newQueue opts) [] ops = some (pq, out)) :
    pq.nextPriority = Rounded.selectByRule (Rounded.levelWeight opts pq) ∧
      ∀ p ∈ scanOrder, ∀ q ∈ scanOrder, p < q →
        Rounded.levelWeight opts pq p = Rounded.levelWeight opts pq q →
        pq.nextPriority ≠ q := by
  have hc : Rounded.Coherent opts pq :=
    Rounded.exec_coherent_f64 ops _ _ _ _ (Rounded.coherent_new_f64 opts) h
  have hr : (fun q => (pq.heapWeight q).rank) =
      fun q => (Rounded.levelWeight opts pq q).rank := by
    funext q
    exact Rounded.coherent_rank hc q
  have hn : pq.nextPriority = scanNext (fun q => (Rounded.levelWeight opts pq q).rank) := by
    rw [hc.next, Rounded.scanNext_rank, hr]
  refine ⟨?_, ?_⟩
  · rw [hn, Rounded.selectByRule_rank, scanNext_eq_selectByRule]
  · intro p hp q _ hpq he hq
    have hlt := scanNext_first (fun q => (Rounded.levelWeight opts pq q).rank) p q hp hpq
      (hn ▸ hq)
    simp only [he] at hlt
    exact lt_irrefl _ hlt

/-- C1 amended, on the state after 2 Medium and 3 Low pushes with the client's
multipliers. -/
theorem next_is_selection_of_float_weights_witness :
    ∃ pq, Rounded.exec (Rounded.newQueue Rounded.clientOptions) [] (Rounded.mediumThenLow 2 3) =
        some (pq, []) ∧
      pq.nextPriority = Low ∧
      pq.nextPriority = Rounded.selectByRule (Rounded.levelWeight Rounded.clientOptions pq) :=
  ⟨_, by with_unfolding_all rfl, by with_unfolding_all rfl,
    (next_is_selection_of_float_weights Rounded.clientOptions (Rounded.mediumThenLow 2 3) _ []
      (by with_unfolding_all rfl)).1⟩

/-- C13 as stated fails on the code. With the client's multipliers, after 3 Low
pushes the cached Low weight is `1.2000000000000002`, which is neither
`3 * 2/5` nor `3` times the exact value of the `float64` multiplier. With the
Low multiplier `+Inf`, on a new queue the cached Low weight is `0`, where
`float64(0) * multiplier` is NaN. -/
theorem cached_weight_counterexample :
    (∃ pq, Rounded.exec (Rounded.newQueue Rounded.clientOptions) [] (Rounded.mediumThenLow 0 3) =
        some (pq, []) ∧
      pq.heapWeight Low = .fin (1351079888211149 / 1125899906842624) ∧
      (1351079888211149 / 1125899906842624 : ℚ) ≠ 3 * (2 / 5) ∧
      (1351079888211149 / 1125899906842624 : ℚ) ≠
        3 * (Rounded.configMap Rounded.clientOptions Low).toRat) ∧
    ((Rounded.newQueue Rounded.lowInfOptions).heapWeight Low = .fin 0 ∧
      F64.mul (F64.ofNat ((Rounded.newQueue Rounded.lowInfOptions).nodeHeap Low).length)
        (Rounded.configMap Rounded.lowInfOptions Low) = .nan) :=
  ⟨⟨_, by with_unfolding_all rfl, by with_unfolding_all rfl, by norm_num,
      by with_unfolding_all decide⟩,
    ⟨rfl, by with_unfolding_all rfl⟩⟩

/-- C13, amended. For finite multipliers, in every state reached from a new
queue by `Push` calls and `Pop` calls the cached weight of each of the four
levels is the `float64` product `float64(count) * multiplier` of the number of
entries in the level's sequence and the level's multiplier (the exact product
rounded to the nearest `float64`, an infinity on overflow). `Pop` recomputes
the weight of the popped entry's priority; that is the level it read from,
because every entry stored in the sequence of level `p` has priority `p`. -/
theorem cached_weight_is_float_product (opts : Rounded.PriorityQueueOptions) (ops : List Op)
    (pq : Rounded.priorityQueue) (out : List QItem) (hfin : Rounded.FiniteOptions opts)
    (h : Rounded.exec (Rounded.newQueue opts) [] ops = some (pq, out)) :
    (∀ p ∈ scanOrder, pq.heapWeight p =
        F64.mul (F64.ofNat (pq.nodeHeap p).length) (Rounded.configMap opts p)) ∧
      (∀ p, ∀ x ∈ pq.nodeHeap p, x.priority = p) ∧
      (∀ node pq', Rounded.Pop pq = .ok node pq' → node.priority = pq.nextPriority) := by
  have hc : Rounded.Coherent opts pq :=
    Rounded.exec_coherent_f64 ops _ _ _ _ (Rounded.coherent_new_f64 opts) h
  refine ⟨?_, hc.keyed, fun node pq' hpop => Rounded.pop_priority_f64 hc hpop⟩
  intro p hp
  rcases hc.weights p with e | ⟨he, hz⟩
  · exact e
  · obtain ⟨b, hb⟩ := hfin p hp
    rw [hz, he, hb]
    exact (Rounded.mul_zero_fin b).symm

/-- The client's multipliers are finite. -/
theorem clientOptions_finite : Rounded.FiniteOptions Rounded.clientOptions := by
  intro p hp
  rcases (mem_scanOrder p).1 hp with e | e | e | e <;> subst e <;>
    exact ⟨_, by with_unfolding_all rfl⟩

/-- C13 amended, on the run push Low, push High, pop, push Immediate with the
client's multipliers. -/
theorem cached_weight_is_float_product_witness :
    Rounded.FiniteOptions Rounded.clientOptions ∧
      ∃ pq out, Rounded.exec (Rounded.newQueue Rounded.clientOptions) []
          [.push ⟨1, Low⟩, .push ⟨2, High⟩, .pop, .push ⟨3, Immediate⟩] = some (pq, out) ∧
        ∀ p ∈ scanOrder, pq.heapWeight p =
          F64.mul (F64.ofNat (pq.nodeHeap p).length) (Rounded.configMap Rounded.clientOptions p) :=
  ⟨clientOptions_finite, _, _, by with_unfolding_all rfl,
    (cached_weight_is_float_product Rounded.clientOptions
      [.push ⟨1, Low⟩, .push ⟨2, High⟩, .pop, .push ⟨3, Immediate⟩] _ _ clientOptions_finite
      (by with_unfolding_all rfl)).1⟩

/-- The Low, Low, High scenario on the `float64` embedding: the weights
`2 * 0.4` and `1 * 0.8` are the same `float64`, and the pops return H, L1, L2
as they do with exact weights. -/
theorem scenario_low_low_high_f64 :
    ∃ pq, Rounded.exec (Rounded.newQueue Rounded.clientOptions) []
        [.push ⟨1, Low⟩, .push ⟨2, Low⟩, .push ⟨3, High⟩, .pop, .pop, .pop, .pop] =
          some (pq, [⟨3, High⟩, ⟨1, Low⟩, ⟨2, Low⟩]) ∧
      Rounded.levelWeight Rounded.clientOptions
          (Rounded.Push (Rounded.Push (Rounded.Push (Rounded.newQueue Rounded.clientOptions)
            ⟨1, Low⟩) ⟨2, Low⟩) ⟨3, High⟩) Low =
        Rounded.levelWeight Rounded.clientOptions
          (Rounded.Push (Rounded.Push (Rounded.Push (Rounded.newQueue Rounded.clientOptions)
            ⟨1, Low⟩) ⟨2, Low⟩) ⟨3, High⟩) High :=
  ⟨_, by with_unfolding_all rfl, by with_unfolding_all rfl⟩

set_option maxRecDepth 100000 in
/-- One Immediate push and 251 Low pushes on the `float64` embedding: the
cached level is Low, as it is with exact weights. -/
theorem immediate_then_251_low_f64 :
    ∃ pq, Rounded.exec (Rounded.newQueue Rounded.clientOptions) [] (immediateThenLow 251) =
        some (pq, []) ∧ pq.nextPriority = Low :=
  ⟨_, by with_unfolding_all rfl, by with_unfolding_all rfl⟩

end RateLimitedHttp
